import Mathlib

/-!
Ownership semantics of `Person` and `SmartPerson`.

A shallow embedding of `CppMemoryManagementExample_1.cpp`.

* The free store is a list of string buffers.  `new string(t)` appends a buffer and
  yields its index; addresses are never handed out twice.  Every buffer records how
  many times `delete` reached it, so that "released exactly once" is a statement
  about the model and not a convention.
* A pointer is `Option Nat`; `none` is `nullptr`.
* Objects are named by natural numbers.  `this` and `rhs` are object names, so that
  `this != &rhs` is a comparison of names and aliasing (`v = v`) is represented
  faithfully: every member access goes through the object table.
* `cout` is the string `out`.
* Undefined behaviour (dereferencing a null or dangling pointer) and ill-formed
  programs (using an object outside its lifetime) are faults.
-/

namespace MemoryManagement

/-- A heap buffer created by `new string(..)` / `make_unique<string>(..)`. -/
structure Buffer where
  /-- The characters held by the string. -/
  text : String
  /-- How many times the buffer was passed to `delete`. -/
  released : Nat
deriving DecidableEq, Repr

/-- A `string*` value: `none` is `nullptr`, `some a` is the address of buffer `a`. -/
abbrev Ptr := Option Nat

/-- The ways an operation can fail to have a defined result. -/
inductive Fault where
  /-- `*p` with `p == nullptr`. -/
  | nullDeref
  /-- `*p` where `p` refers to a released (or never allocated) buffer. -/
  | danglingDeref
  /-- An operation names an object that is not within its lifetime. -/
  | noObject
  /-- An object is constructed under a name that is still in use. -/
  | nameInUse
deriving DecidableEq, Repr

/-- The machine state: free store, live objects with their `pName_` member, and `cout`. -/
structure State where
  /-- Every buffer ever allocated, indexed by address. -/
  heap : List Buffer
  /-- The objects within their lifetime, each with the value of its `pName_`. -/
  objs : List (Nat × Ptr)
  /-- The characters written to `cout` so far. -/
  out : String
deriving DecidableEq, Repr

/-- The state at program start. -/
def State.init : State := ⟨[], [], ""⟩

/-! ## Object table -/

/-- The `pName_` of the object named `x`, if it is within its lifetime. -/
def findObj : List (Nat × Ptr) → Nat → Option Ptr
  | [], _ => none
  | (k, p) :: rest, x => if k = x then some p else findObj rest x

/-- Overwrites the `pName_` of the object named `x`. -/
def storeObj : List (Nat × Ptr) → Nat → Ptr → List (Nat × Ptr)
  | [], _, _ => []
  | (k, p) :: rest, x, q => if k = x then (k, q) :: rest else (k, p) :: storeObj rest x q

/-- Removes the object named `x` from the table. -/
def dropObj : List (Nat × Ptr) → Nat → List (Nat × Ptr)
  | [], _ => []
  | (k, p) :: rest, x => if k = x then dropObj rest x else (k, p) :: dropObj rest x

/-- Reads `x.pName_`. -/
def State.getName (s : State) (x : Nat) : Except Fault Ptr :=
  match findObj s.objs x with
  | some p => .ok p
  | none => .error .noObject

/-- Writes `x.pName_ = p`. -/
def State.setName (s : State) (x : Nat) (p : Ptr) : State :=
  { s with objs := storeObj s.objs x p }

/-- Starts the lifetime of an object named `x` whose member is initialised to `p`. -/
def State.begin (s : State) (x : Nat) (p : Ptr) : Except Fault State :=
  match findObj s.objs x with
  | some _ => .error .nameInUse
  | none => .ok { s with objs := (x, p) :: s.objs }

/-- Ends the lifetime of the object named `x`. -/
def State.finish (s : State) (x : Nat) : State :=
  { s with objs := dropObj s.objs x }

/-! ## Free store -/

/-- The expression `new string(t)`: a fresh buffer holding `t`, and its address. -/
def State.alloc (s : State) (t : String) : Nat × State :=
  (s.heap.length, { s with heap := s.heap ++ [⟨t, 0⟩] })

/-- The expression `*p` for a `string*`. -/
def State.deref (s : State) (p : Ptr) : Except Fault String :=
  match p with
  | none => .error .nullDeref
  | some a =>
    match s.heap[a]? with
    | some b => if b.released = 0 then .ok b.text else .error .danglingDeref
    | none => .error .danglingDeref

/-- The statement `delete p`: nothing for `nullptr`, otherwise one more release of the
buffer `p` refers to.  An address beyond the heap, which no operation produces, is left
alone. -/
def State.delete (s : State) (p : Ptr) : State :=
  match p with
  | none => s
  | some a =>
    match s.heap[a]? with
    | some b => { s with heap := s.heap.set a { b with released := b.released + 1 } }
    | none => s

/-- The expression `stream << str << endl` on `cout`. -/
def State.write (s : State) (t : String) : State :=
  { s with out := s.out ++ t ++ "\n" }

/-! ## `class Person` (raw pointer) -/

namespace Person

/-- `Person(string name = "") : pName_{ new string(name) } { }` (line 20). -/
def ctor (this : Nat) (name : String) (s : State) : Except Fault State :=
  let (p, s) := s.alloc name
  s.begin this (some p)

/-- `Person(const Person& rhs) : pName_{ new string(*rhs.pName_) } { }` (lines 22-24). -/
def copyCtor (this rhs : Nat) (s : State) : Except Fault State := do
  let q ← s.getName rhs
  let t ← s.deref q
  let (p, s) := s.alloc t
  s.begin this (some p)

/-- `Person& operator=(const Person& rhs)` (lines 26-31).  The first line only requires
`*this` to be within its lifetime. -/
def copyAssign (this rhs : Nat) (s : State) : Except Fault State := do
  let _ ← s.getName this
  if this ≠ rhs then
    let q ← s.getName rhs
    let t ← s.deref q
    let (p, s) := s.alloc t
    pure (s.setName this (some p))
  else
    pure s

/-- `Person& operator=(Person&& rhs)` (lines 37-41). -/
def moveAssign (this rhs : Nat) (s : State) : Except Fault State := do
  let _ ← s.getName this
  let q ← s.getName rhs
  let s := s.setName this q
  let s := s.setName rhs none
  pure s

/-- `Person(Person&& rhs) { *this = std::move(rhs); }` (lines 33-35).  The member is not
initialised before the body runs; the move assignment overwrites it without reading
it, so the placeholder value is never observed. -/
def moveCtor (this rhs : Nat) (s : State) : Except Fault State := do
  let _ ← s.getName rhs
  let s ← s.begin this none
  moveAssign this rhs s

/-- `~Person() { delete pName_; }` (line 43), followed by the end of the lifetime. -/
def dtor (this : Nat) (s : State) : Except Fault State := do
  let p ← s.getName this
  pure ((s.delete p).finish this)

/-- `operator<<(ostream&, const Person&)` on `cout` (line 51). -/
def insertion (person : Nat) (s : State) : Except Fault State := do
  let p ← s.getName person
  let t ← s.deref p
  pure (s.write t)

/-- `void printName() const { cout << *this; }` (line 45). -/
def printName (this : Nat) (s : State) : Except Fault State :=
  insertion this s

end Person

/-! ## `std::unique_ptr<string>` as the member `pName_` -/

/-- `x.pName_.release()`: yields the stored pointer and stores `nullptr`. -/
def uniqueRelease (x : Nat) (s : State) : Except Fault (Ptr × State) := do
  let p ← s.getName x
  pure (p, s.setName x none)

/-- `x.pName_.reset(p)`: stores `p`, then deletes the pointer stored before. -/
def uniqueReset (x : Nat) (p : Ptr) (s : State) : Except Fault State := do
  let old ← s.getName x
  let s := s.setName x p
  pure (s.delete old)

/-! ## `class SmartPerson` (`unique_ptr`) -/

namespace SmartPerson

/-- `SmartPerson(string name = "") : pName_{ make_unique<string>(name) } { }` (line 57). -/
def ctor (this : Nat) (name : String) (s : State) : Except Fault State :=
  let (p, s) := s.alloc name
  s.begin this (some p)

/-- `SmartPerson(const SmartPerson& rhs) : pName_{ make_unique<string>(*rhs.pName_) } {}`
(line 59). -/
def copyCtor (this rhs : Nat) (s : State) : Except Fault State := do
  let q ← s.getName rhs
  let t ← s.deref q
  let (p, s) := s.alloc t
  s.begin this (some p)

/-- `SmartPerson& operator=(const SmartPerson& rhs)` (lines 60-64).  The right-hand side
`make_unique<string>(*rhs.pName_)` is a temporary `unique_ptr`; move-assigning it to
`pName_` is `pName_.reset(tmp.release())`. -/
def copyAssign (this rhs : Nat) (s : State) : Except Fault State := do
  let _ ← s.getName this
  if this ≠ rhs then
    let q ← s.getName rhs
    let t ← s.deref q
    let (p, s) := s.alloc t
    uniqueReset this (some p) s
  else
    pure s

/-- `SmartPerson(SmartPerson&&) = default;` (line 66): the member is move-constructed,
that is, initialised with `rhs.pName_.release()`. -/
def moveCtor (this rhs : Nat) (s : State) : Except Fault State := do
  let (p, s) ← uniqueRelease rhs s
  s.begin this p

/-- `SmartPerson& operator=(SmartPerson&&) = default;` (line 67): the member is
move-assigned, that is, `pName_.reset(rhs.pName_.release())`. -/
def moveAssign (this rhs : Nat) (s : State) : Except Fault State := do
  let _ ← s.getName this
  let (p, s) ← uniqueRelease rhs s
  uniqueReset this p s

/-- `~SmartPerson() { }` (line 69): the body does nothing, then the member `pName_` is
destroyed, which deletes the stored pointer unless it is null. -/
def dtor (this : Nat) (s : State) : Except Fault State := do
  let p ← s.getName this
  pure ((s.delete p).finish this)

/-- `operator<<(ostream&, const SmartPerson&)` on `cout` (line 78). -/
def insertion (person : Nat) (s : State) : Except Fault State := do
  let p ← s.getName person
  let t ← s.deref p
  pure (s.write t)

/-- `void printName() const { cout << *this; }` (line 71). -/
def printName (this : Nat) (s : State) : Except Fault State :=
  insertion this s

end SmartPerson

/-! ## Programs of calling code -/

/-- Which of the two classes the calling code uses. -/
inductive Variant where
  | person
  | smart
deriving DecidableEq, Repr

/-- One operation of calling code on named objects. -/
inductive Op where
  /-- `T x(t);` -/
  | construct (x : Nat) (t : String)
  /-- `T x(y);` -/
  | copyConstruct (x y : Nat)
  /-- `x = y;` -/
  | copyAssign (x y : Nat)
  /-- `T x(std::move(y));` -/
  | moveConstruct (x y : Nat)
  /-- `x = std::move(y);` -/
  | moveAssign (x y : Nat)
  /-- End of the lifetime of `x`. -/
  | destroy (x : Nat)
  /-- `x.printName();` -/
  | print (x : Nat)
deriving DecidableEq, Repr

/-- Runs one operation with the member functions of the chosen class. -/
def step : Variant → Op → State → Except Fault State
  | .person, .construct x t, s => Person.ctor x t s
  | .person, .copyConstruct x y, s => Person.copyCtor x y s
  | .person, .copyAssign x y, s => Person.copyAssign x y s
  | .person, .moveConstruct x y, s => Person.moveCtor x y s
  | .person, .moveAssign x y, s => Person.moveAssign x y s
  | .person, .destroy x, s => Person.dtor x s
  | .person, .print x, s => Person.printName x s
  | .smart, .construct x t, s => SmartPerson.ctor x t s
  | .smart, .copyConstruct x y, s => SmartPerson.copyCtor x y s
  | .smart, .copyAssign x y, s => SmartPerson.copyAssign x y s
  | .smart, .moveConstruct x y, s => SmartPerson.moveCtor x y s
  | .smart, .moveAssign x y, s => SmartPerson.moveAssign x y s
  | .smart, .destroy x, s => SmartPerson.dtor x s
  | .smart, .print x, s => SmartPerson.printName x s

/-- Runs a sequence of operations, stopping at the first fault. -/
def run (V : Variant) : List Op → State → Except Fault State
  | [], s => .ok s
  | op :: ops, s =>
    match step V op s with
    | .ok s1 => run V ops s1
    | .error e => .error e

/-! ## `main` -/

/-- A `std::vector` of objects: the names of its elements in order, and its capacity.
The capacity only decides when the elements are relocated. -/
structure Vec where
  /-- The element objects, first to last. -/
  elems : List Nat
  /-- The number of elements the current storage can hold. -/
  cap : Nat
deriving DecidableEq, Repr

/-- A name no live object has: storage the vector obtains for a new element. -/
def State.freshName (s : State) : Nat :=
  (s.objs.map Prod.fst).foldr max 0 + 1

/-- Moves the elements of a full vector into new storage: each element is
move-constructed at its new place and the old one is destroyed. -/
def Vec.relocate : List Nat → State → Except Fault (List Nat × State)
  | [], s => .ok ([], s)
  | e :: es, s => do
    let n := s.freshName
    let s ← SmartPerson.moveCtor n e s
    let s ← SmartPerson.dtor e s
    let (ns, s) ← Vec.relocate es s
    pure (n :: ns, s)

/-- `persons.emplace_back(args...)`; `make n` constructs the new element from the
arguments at the place named `n`.  When the storage is full the vector grows to
`size + max(size, 1)`, constructs the new element in the new storage and relocates
the old elements in front of it. -/
def Vec.emplace_back (v : Vec) (make : Nat → State → Except Fault State) (s : State) :
    Except Fault (Vec × State) := do
  let n := s.freshName
  let s ← make n s
  if v.elems.length < v.cap then
    pure ({ v with elems := v.elems ++ [n] }, s)
  else
    let (moved, s) ← Vec.relocate v.elems s
    pure (⟨moved ++ [n], v.elems.length + max v.elems.length 1⟩, s)

/-- `persons.push_back(std::move(x))`, which is `emplace_back(std::move(x))`. -/
def Vec.push_back (v : Vec) (x : Nat) (s : State) : Except Fault (Vec × State) :=
  v.emplace_back (fun n s => SmartPerson.moveCtor n x s) s

/-- The loop `for (it = cbegin(); it != cend(); ++it) it->printName();`. -/
def Vec.printAll : List Nat → State → Except Fault State
  | [], s => .ok s
  | e :: es, s => do
    let s ← SmartPerson.printName e s
    Vec.printAll es s

/-- The vector's destructor: every element is destroyed. -/
def Vec.destroyAll : List Nat → State → Except Fault State
  | [], s => .ok s
  | e :: es, s => do
    let s ← SmartPerson.dtor e s
    Vec.destroyAll es s

/-- `int main(int argc, char *argv[])` (lines 82-108), with `Person` an alias of
`SmartPerson`.  The locals `p1`..`p4` are the objects 1..4 and the temporary
`Person("George")` is object 5.  Yields the exit status and the final state. -/
def main (s : State) : Except Fault (Int × State) := do
  let s ← SmartPerson.ctor 1 "Ivan Vazov" s
  let s ← SmartPerson.ctor 2 "Zeus" s
  -- inner block
  let s ← SmartPerson.copyCtor 3 1 s
  let s ← SmartPerson.ctor 4 "" s
  let s ← SmartPerson.copyAssign 4 2 s
  let s ← SmartPerson.dtor 4 s
  let s ← SmartPerson.dtor 3 s
  let s ← SmartPerson.printName 1 s
  let s ← SmartPerson.printName 2 s
  let persons : Vec := ⟨[], 0⟩
  let s ← SmartPerson.ctor 5 "George" s
  let (persons, s) ← persons.push_back 5 s
  let s ← SmartPerson.dtor 5 s
  let (persons, s) ← persons.emplace_back (fun n s => SmartPerson.ctor n "Nicky" s) s
  let s ← Vec.printAll persons.elems s
  -- return: locals are destroyed in reverse order of declaration
  let s ← Vec.destroyAll persons.elems s
  let s ← SmartPerson.dtor 2 s
  let s ← SmartPerson.dtor 1 s
  pure (0, s)

/-! ## Invariants -/

/-- The buffer at address `a` exists and has not been released. -/
def LiveAt (h : List Buffer) (a : Nat) : Prop :=
  ∃ b : Buffer, h[a]? = some b ∧ b.released = 0

/-- The single-owner invariant: every non-null `pName_` of a live object refers to a
buffer that is still allocated, and no two live objects hold the same buffer. -/
structure WF (s : State) : Prop where
  /-- A non-null member refers to an allocated buffer. -/
  valid : ∀ x a, findObj s.objs x = some (some a) → LiveAt s.heap a
  /-- Two objects holding the same buffer are the same object. -/
  unique : ∀ x y a, findObj s.objs x = some (some a) → findObj s.objs y = some (some a) → x = y

/-- The accounting invariant of the `unique_ptr` variant: no buffer was released twice,
and every buffer not yet released is held by a live object. -/
structure Tight (s : State) : Prop where
  /-- No buffer has been released more than once. -/
  once : ∀ (a : Nat) (b : Buffer), s.heap[a]? = some b → b.released ≤ 1
  /-- An unreleased buffer has an owner. -/
  owned : ∀ a, LiveAt s.heap a → ∃ x, findObj s.objs x = some (some a)

/-- The object `v` holds the text `t`: its `pName_` is the address `a` of an allocated
buffer whose characters are `t`. -/
def Holds (s : State) (v a : Nat) (t : String) : Prop :=
  findObj s.objs v = some (some a) ∧ s.heap[a]? = some ⟨t, 0⟩

/-- Copy independence of the copy `c` of `v`, where `v` holds `t` in buffer `a` and `s1`
is the state right after the copy: `c` holds `t` in a buffer other than `a`, `v` still
holds `t` in `a`, nothing was printed, and after `v` is destroyed `c` still holds `t`
and prints `t` and a line terminator. -/
def CopyIndependent (V : Variant) (s s1 : State) (v a c : Nat) (t : String) : Prop :=
  ∃ a', Holds s1 c a' t ∧ a' ≠ a ∧ Holds s1 v a t ∧ s1.out = s.out ∧
    ∃ s2, step V (.destroy v) s1 = .ok s2 ∧ Holds s2 c a' t ∧
      step V (.print c) s2 = .ok { s2 with out := s.out ++ t ++ "\n" }

/-- Move transfer from `v`, which held `t` in buffer `a`, to `w`, where `s1` is the state
right after the move: `w` holds `t` in the very buffer `a`, which is not released; the
`pName_` of `v` is null; no buffer was allocated; nothing was printed; and `w` prints
`t` and a line terminator. -/
def Transferred (V : Variant) (s s1 : State) (v a w : Nat) (t : String) : Prop :=
  Holds s1 w a t ∧ findObj s1.objs v = some none ∧ s1.heap.length = s.heap.length ∧
    s1.out = s.out ∧ step V (.print w) s1 = .ok { s1 with out := s.out ++ t ++ "\n" }

/-- What calling code can tell about a state: for every live object the text it holds
(nothing when its `pName_` is null), and the characters written to `cout`. -/
def State.view (s : State) : List (Nat × Option String) × String :=
  (s.objs.map (fun e => (e.1, e.2.bind (fun a => (s.heap.map Buffer.text)[a]?))), s.out)

/-- The observable outcome of a run: the fault, or the view of the final state. -/
def observe : Except Fault State → Except Fault (List (Nat × Option String) × String)
  | .ok s => .ok s.view
  | .error e => .error e

/-- Whether the operation is a move assignment of an object to itself. -/
def Op.selfMove : Op → Bool
  | .moveAssign x y => x == y
  | _ => false

/-- Two outcomes agree: the same fault, or states with the same objects, the same
output and the same texts at the same addresses. -/
def Agree (r1 r2 : Except Fault State) : Prop :=
  match r1, r2 with
  | .ok a, .ok b =>
    a.objs = b.objs ∧ a.out = b.out ∧ a.heap.map Buffer.text = b.heap.map Buffer.text
  | .error e1, .error e2 => e1 = e2
  | _, _ => False

/-! ## Lemmas on the object table and the free store -/

theorem findObj_storeObj (l : List (Nat × Ptr)) (x y : Nat) (q : Ptr) :
    findObj (storeObj l x q) y =
      if y = x then (findObj l x).map (fun _ => q) else findObj l y := by
  induction l with
  | nil => simp [findObj, storeObj]
  | cons hd tl ih =>
    obtain ⟨k, p⟩ := hd
    by_cases hk : k = x <;> by_cases hy : y = x <;> by_cases hky : k = y <;>
      simp_all [findObj, storeObj]

theorem findObj_dropObj (l : List (Nat × Ptr)) (x y : Nat) :
    findObj (dropObj l x) y = if y = x then none else findObj l y := by
  induction l with
  | nil => simp [findObj, dropObj]
  | cons hd tl ih =>
    obtain ⟨k, p⟩ := hd
    by_cases hk : k = x <;> by_cases hy : y = x <;> by_cases hky : k = y <;>
      simp_all [findObj, dropObj]

theorem findObj_cons (l : List (Nat × Ptr)) (x y : Nat) (q : Ptr) :
    findObj ((x, q) :: l) y = if y = x then some q else findObj l y := by
  by_cases h : y = x
  · simp [findObj, h]
  · have h2 : ¬ x = y := fun e => h e.symm
    simp [findObj, h, h2]

theorem liveAt_lt {h : List Buffer} {a : Nat} (hl : LiveAt h a) : a < h.length := by
  obtain ⟨b, hb, _⟩ := hl
  by_contra hge
  have : h[a]? = none := List.getElem?_eq_none (Nat.le_of_not_lt hge)
  rw [this] at hb
  cases hb

theorem liveAt_append (h : List Buffer) (t : String) (a : Nat) :
    LiveAt (h ++ [⟨t, 0⟩]) a ↔ LiveAt h a ∨ a = h.length := by
  constructor
  · rintro ⟨b, hb, hr⟩
    by_cases hlt : a < h.length
    · left
      rw [List.getElem?_append_left hlt] at hb
      exact ⟨b, hb, hr⟩
    · right
      by_contra hne
      have hgt : h.length + 1 ≤ a := by omega
      have : (h ++ [(⟨t, 0⟩ : Buffer)])[a]? = none :=
        List.getElem?_eq_none (by simpa using hgt)
      rw [this] at hb
      cases hb
  · rintro (⟨b, hb, hr⟩ | rfl)
    · have hlt : a < h.length := liveAt_lt ⟨b, hb, hr⟩
      exact ⟨b, by rw [List.getElem?_append_left hlt]; exact hb, hr⟩
    · exact ⟨⟨t, 0⟩, by simp, rfl⟩

theorem getElem?_release (h : List Buffer) (a0 a : Nat) (b0 : Buffer) (h0 : h[a0]? = some b0) :
    (h.set a0 { b0 with released := b0.released + 1 })[a]? =
      if a = a0 then some { b0 with released := b0.released + 1 } else h[a]? := by
  by_cases e : a = a0
  · subst e
    have hlt : a < h.length := by
      by_contra hge
      rw [List.getElem?_eq_none (Nat.le_of_not_lt hge)] at h0
      cases h0
    simp [hlt]
  · have e2 : ¬ a0 = a := fun x => e x.symm
    simp [e, List.getElem?_set_ne e2]

theorem liveAt_release (h : List Buffer) (a0 a : Nat) (b0 : Buffer) (h0 : h[a0]? = some b0) :
    LiveAt (h.set a0 { b0 with released := b0.released + 1 }) a ↔ LiveAt h a ∧ a ≠ a0 := by
  unfold LiveAt
  rw [getElem?_release h a0 a b0 h0]
  by_cases e : a = a0
  · simp [e]
  · simp [e]

@[simp] theorem State.setName_heap (s : State) (x : Nat) (p : Ptr) :
    (s.setName x p).heap = s.heap := rfl

@[simp] theorem State.setName_objs (s : State) (x : Nat) (p : Ptr) :
    (s.setName x p).objs = storeObj s.objs x p := rfl

@[simp] theorem State.setName_out (s : State) (x : Nat) (p : Ptr) :
    (s.setName x p).out = s.out := rfl

@[simp] theorem State.finish_heap (s : State) (x : Nat) : (s.finish x).heap = s.heap := rfl

@[simp] theorem State.finish_objs (s : State) (x : Nat) :
    (s.finish x).objs = dropObj s.objs x := rfl

@[simp] theorem State.finish_out (s : State) (x : Nat) : (s.finish x).out = s.out := rfl

@[simp] theorem State.alloc_fst (s : State) (t : String) : (s.alloc t).1 = s.heap.length := rfl

@[simp] theorem State.alloc_heap (s : State) (t : String) :
    (s.alloc t).2.heap = s.heap ++ [⟨t, 0⟩] := rfl

@[simp] theorem State.alloc_objs (s : State) (t : String) : (s.alloc t).2.objs = s.objs := rfl

@[simp] theorem State.alloc_out (s : State) (t : String) : (s.alloc t).2.out = s.out := rfl

@[simp] theorem State.delete_objs (s : State) (p : Ptr) : (s.delete p).objs = s.objs := by
  unfold State.delete
  split
  · rfl
  · split <;> rfl

@[simp] theorem State.delete_out (s : State) (p : Ptr) : (s.delete p).out = s.out := by
  unfold State.delete
  split
  · rfl
  · split <;> rfl

@[simp] theorem State.delete_length (s : State) (p : Ptr) :
    (s.delete p).heap.length = s.heap.length := by
  unfold State.delete
  split
  · rfl
  · split <;> simp

@[simp] theorem State.write_heap (s : State) (t : String) : (s.write t).heap = s.heap := rfl

@[simp] theorem State.write_objs (s : State) (t : String) : (s.write t).objs = s.objs := rfl

theorem State.getName_ok (s : State) (x : Nat) (p : Ptr) :
    s.getName x = .ok p ↔ findObj s.objs x = some p := by
  unfold State.getName
  cases h : findObj s.objs x <;> simp

theorem State.begin_ok (s : State) (x : Nat) (p : Ptr) (s1 : State) :
    s.begin x p = .ok s1 ↔
      findObj s.objs x = none ∧ s1 = ⟨s.heap, (x, p) :: s.objs, s.out⟩ := by
  unfold State.begin
  cases h : findObj s.objs x <;> simp [eq_comm]

theorem State.deref_ok (s : State) (p : Ptr) (t : String) :
    s.deref p = .ok t ↔ ∃ a, p = some a ∧ s.heap[a]? = some ⟨t, 0⟩ := by
  unfold State.deref
  cases p with
  | none => simp
  | some a =>
    simp only [Option.some.injEq, exists_eq_left']
    cases h : s.heap[a]? with
    | none => simp
    | some b =>
      obtain ⟨bt, br⟩ := b
      by_cases hr : br = 0
      · simp [hr]
      · simp [hr]

/-- What `delete p` does to the buffer at address `a`. -/
theorem State.delete_getElem? (s : State) (p : Ptr) (a : Nat) :
    (s.delete p).heap[a]? =
      if p = some a then (s.heap[a]?).map (fun b => { b with released := b.released + 1 })
      else s.heap[a]? := by
  unfold State.delete
  cases p with
  | none => simp
  | some a0 =>
    cases h : s.heap[a0]? with
    | none =>
      simp only [h]
      by_cases e : a0 = a
      · subst e; simp [h]
      · simp [e]
    | some b0 =>
      simp only [h, getElem?_release s.heap a0 a b0 h]
      by_cases e : a = a0
      · subst e; simp [h]
      · have e2 : ¬ a0 = a := fun x => e x.symm
        simp [e, e2]

theorem State.liveAt_delete (s : State) (p : Ptr) (a : Nat) :
    LiveAt (s.delete p).heap a ↔ LiveAt s.heap a ∧ p ≠ some a := by
  unfold LiveAt
  rw [State.delete_getElem?]
  by_cases e : p = some a
  · simp [e]
  · simp [e]

/-! ## What each member function does when it succeeds -/

theorem bind_ok_iff {ε α β : Type} (x : Except ε α) (f : α → Except ε β) (b : β) :
    (x >>= f) = .ok b ↔ ∃ a, x = .ok a ∧ f a = .ok b := by
  cases x <;> simp [bind, Except.bind]

theorem pure_ok_iff {ε α : Type} (a b : α) :
    (pure a : Except ε α) = .ok b ↔ a = b := by
  simp [pure, Except.pure]

theorem person_ctor_ok (x : Nat) (t : String) (s s1 : State) :
    Person.ctor x t s = .ok s1 ↔
      findObj s.objs x = none ∧
        s1 = ⟨s.heap ++ [⟨t, 0⟩], (x, some s.heap.length) :: s.objs, s.out⟩ := by
  simp [Person.ctor, State.begin_ok, State.alloc]

theorem person_copyCtor_ok (x y : Nat) (s s1 : State) :
    Person.copyCtor x y s = .ok s1 ↔
      ∃ a t, findObj s.objs y = some (some a) ∧ s.heap[a]? = some ⟨t, 0⟩ ∧
        findObj s.objs x = none ∧
        s1 = ⟨s.heap ++ [⟨t, 0⟩], (x, some s.heap.length) :: s.objs, s.out⟩ := by
  simp only [Person.copyCtor, bind_ok_iff, State.getName_ok, State.deref_ok, State.begin_ok]
  constructor
  · rintro ⟨_, h1, t, ⟨a, rfl, h2⟩, h3, h4⟩
    exact ⟨a, t, h1, h2, h3, h4⟩
  · rintro ⟨a, t, h1, h2, h3, h4⟩
    exact ⟨some a, h1, t, ⟨a, rfl, h2⟩, h3, h4⟩

theorem person_copyAssign_ok (x y : Nat) (s s1 : State) :
    Person.copyAssign x y s = .ok s1 ↔
      (∃ p, findObj s.objs x = some p) ∧
        ((x = y ∧ s1 = s) ∨
          (x ≠ y ∧ ∃ a t, findObj s.objs y = some (some a) ∧ s.heap[a]? = some ⟨t, 0⟩ ∧
            s1 = ⟨s.heap ++ [⟨t, 0⟩], storeObj s.objs x (some s.heap.length), s.out⟩)) := by
  unfold Person.copyAssign
  by_cases hxy : x = y
  · subst hxy
    simp only [bind_ok_iff, State.getName_ok, ne_eq, not_true_eq_false, if_false, pure_ok_iff]
    constructor
    · rintro ⟨p, hp, rfl⟩
      exact ⟨⟨p, hp⟩, Or.inl ⟨trivial, rfl⟩⟩
    · rintro ⟨⟨p, hp⟩, h⟩
      rcases h with ⟨_, rfl⟩ | ⟨hne, _⟩
      · exact ⟨p, hp, rfl⟩
      · exact hne.elim
  · simp only [bind_ok_iff, State.getName_ok, State.deref_ok, ne_eq, hxy, not_false_eq_true,
      if_true, pure_ok_iff]
    constructor
    · rintro ⟨p, hp, _, h1, t, ⟨a, rfl, h2⟩, h4⟩
      exact ⟨⟨p, hp⟩, Or.inr ⟨trivial, a, t, h1, h2, h4.symm⟩⟩
    · rintro ⟨⟨p, hp⟩, h⟩
      rcases h with ⟨hf, _⟩ | ⟨_, a, t, h1, h2, h4⟩
      · exact absurd hf (by simp)
      · exact ⟨p, hp, some a, h1, t, ⟨a, rfl, h2⟩, h4.symm⟩

theorem person_moveAssign_ok (x y : Nat) (s s1 : State) :
    Person.moveAssign x y s = .ok s1 ↔
      ∃ p q, findObj s.objs x = some p ∧ findObj s.objs y = some q ∧
        s1 = ⟨s.heap, storeObj (storeObj s.objs x q) y none, s.out⟩ := by
  simp only [Person.moveAssign, bind_ok_iff, State.getName_ok, pure_ok_iff]
  constructor
  · rintro ⟨p, hp, q, hq, h⟩
    exact ⟨p, q, hp, hq, h.symm⟩
  · rintro ⟨p, q, hp, hq, h⟩
    exact ⟨p, hp, q, hq, h.symm⟩

theorem storeObj_absent (l : List (Nat × Ptr)) (x : Nat) (q : Ptr) (h : findObj l x = none) :
    storeObj l x q = l := by
  induction l with
  | nil => rfl
  | cons hd tl ih =>
    obtain ⟨k, p⟩ := hd
    by_cases hk : k = x
    · simp [findObj, hk] at h
    · simp only [findObj, hk, if_false] at h
      simp [storeObj, hk, ih h]

theorem person_moveCtor_ok (x y : Nat) (s s1 : State) :
    Person.moveCtor x y s = .ok s1 ↔
      ∃ q, findObj s.objs y = some q ∧ findObj s.objs x = none ∧
        s1 = ⟨s.heap, (x, q) :: storeObj s.objs y none, s.out⟩ := by
  simp only [Person.moveCtor, bind_ok_iff, State.getName_ok, State.begin_ok,
    person_moveAssign_ok]
  constructor
  · rintro ⟨q, hq, _, ⟨hx, rfl⟩, p, q2, hp, hq2, rfl⟩
    have hne : ¬ x = y := by
      rintro rfl
      rw [hx] at hq
      cases hq
    have hne2 : ¬ y = x := fun e => hne e.symm
    simp only [findObj_cons, hne2, if_false] at hq2
    rw [hq] at hq2
    cases hq2
    refine ⟨q, hq, hx, ?_⟩
    simp [storeObj, hne, storeObj_absent _ _ _ hx]
  · rintro ⟨q, hq, hx, rfl⟩
    have hne : ¬ x = y := by
      rintro rfl
      rw [hx] at hq
      cases hq
    have hne2 : ¬ y = x := fun e => hne e.symm
    refine ⟨q, hq, _, ⟨hx, rfl⟩, none, q, ?_, ?_, ?_⟩
    · simp [findObj_cons]
    · simp [findObj_cons, hne2, hq]
    · simp [storeObj, hne, storeObj_absent _ _ _ hx]

theorem person_dtor_ok (x : Nat) (s s1 : State) :
    Person.dtor x s = .ok s1 ↔
      ∃ p, findObj s.objs x = some p ∧ s1 = (s.delete p).finish x := by
  simp only [Person.dtor, bind_ok_iff, State.getName_ok, pure_ok_iff]
  constructor
  · rintro ⟨p, hp, h⟩
    exact ⟨p, hp, h.symm⟩
  · rintro ⟨p, hp, h⟩
    exact ⟨p, hp, h.symm⟩

theorem person_printName_ok (x : Nat) (s s1 : State) :
    Person.printName x s = .ok s1 ↔
      ∃ a t, findObj s.objs x = some (some a) ∧ s.heap[a]? = some ⟨t, 0⟩ ∧
        s1 = s.write t := by
  simp only [Person.printName, Person.insertion, bind_ok_iff, State.getName_ok,
    State.deref_ok, pure_ok_iff]
  constructor
  · rintro ⟨_, h1, t, ⟨a, rfl, h2⟩, h⟩
    exact ⟨a, t, h1, h2, h.symm⟩
  · rintro ⟨a, t, h1, h2, h⟩
    exact ⟨some a, h1, t, ⟨a, rfl, h2⟩, h.symm⟩

theorem smart_ctor_ok (x : Nat) (t : String) (s s1 : State) :
    SmartPerson.ctor x t s = .ok s1 ↔
      findObj s.objs x = none ∧
        s1 = ⟨s.heap ++ [⟨t, 0⟩], (x, some s.heap.length) :: s.objs, s.out⟩ :=
  person_ctor_ok x t s s1

theorem smart_copyCtor_ok (x y : Nat) (s s1 : State) :
    SmartPerson.copyCtor x y s = .ok s1 ↔
      ∃ a t, findObj s.objs y = some (some a) ∧ s.heap[a]? = some ⟨t, 0⟩ ∧
        findObj s.objs x = none ∧
        s1 = ⟨s.heap ++ [⟨t, 0⟩], (x, some s.heap.length) :: s.objs, s.out⟩ :=
  person_copyCtor_ok x y s s1

theorem smart_dtor_ok (x : Nat) (s s1 : State) :
    SmartPerson.dtor x s = .ok s1 ↔
      ∃ p, findObj s.objs x = some p ∧ s1 = (s.delete p).finish x :=
  person_dtor_ok x s s1

theorem smart_printName_ok (x : Nat) (s s1 : State) :
    SmartPerson.printName x s = .ok s1 ↔
      ∃ a t, findObj s.objs x = some (some a) ∧ s.heap[a]? = some ⟨t, 0⟩ ∧
        s1 = s.write t :=
  person_printName_ok x s s1

theorem smart_copyAssign_ok (x y : Nat) (s s1 : State) :
    SmartPerson.copyAssign x y s = .ok s1 ↔
      ∃ p, findObj s.objs x = some p ∧
        ((x = y ∧ s1 = s) ∨
          (x ≠ y ∧ ∃ a t, findObj s.objs y = some (some a) ∧ s.heap[a]? = some ⟨t, 0⟩ ∧
            s1 = State.delete
              ⟨s.heap ++ [⟨t, 0⟩], storeObj s.objs x (some s.heap.length), s.out⟩ p)) := by
  unfold SmartPerson.copyAssign
  by_cases hxy : x = y
  · subst hxy
    simp only [bind_ok_iff, State.getName_ok, ne_eq, not_true_eq_false, if_false, pure_ok_iff]
    constructor
    · rintro ⟨p, hp, rfl⟩
      exact ⟨p, hp, Or.inl ⟨trivial, rfl⟩⟩
    · rintro ⟨p, hp, h⟩
      rcases h with ⟨_, rfl⟩ | ⟨hne, _⟩
      · exact ⟨p, hp, rfl⟩
      · exact hne.elim
  · simp only [bind_ok_iff, State.getName_ok, State.deref_ok, ne_eq, hxy, not_false_eq_true,
      if_true, pure_ok_iff, uniqueReset]
    constructor
    · rintro ⟨p, hp, _, h1, t, ⟨a, rfl, h2⟩, old, hold, h4⟩
      have : old = p := by
        have h5 : findObj s.objs x = some old := hold
        rw [hp] at h5
        cases h5
        rfl
      subst this
      exact ⟨old, hp, Or.inr ⟨trivial, a, t, h1, h2, h4.symm⟩⟩
    · rintro ⟨p, hp, h⟩
      rcases h with ⟨hf, _⟩ | ⟨_, a, t, h1, h2, h4⟩
      · exact absurd hf (by simp)
      · exact ⟨p, hp, some a, h1, t, ⟨a, rfl, h2⟩, p, hp, h4.symm⟩

theorem smart_moveCtor_ok (x y : Nat) (s s1 : State) :
    SmartPerson.moveCtor x y s = .ok s1 ↔
      ∃ q, findObj s.objs y = some q ∧ findObj s.objs x = none ∧
        s1 = ⟨s.heap, (x, q) :: storeObj s.objs y none, s.out⟩ := by
  simp only [SmartPerson.moveCtor, uniqueRelease, bind_ok_iff, State.getName_ok,
    State.begin_ok, pure_ok_iff]
  constructor
  · rintro ⟨⟨q, s2⟩, ⟨q2, hq, h⟩, hx, rfl⟩
    cases h
    simp only [State.setName_objs, findObj_storeObj] at hx
    have hne : ¬ x = y := by
      rintro rfl
      simp [hq] at hx
    simp only [hne, if_false] at hx
    exact ⟨q, hq, hx, rfl⟩
  · rintro ⟨q, hq, hx, rfl⟩
    have hne : ¬ x = y := by
      rintro rfl
      rw [hx] at hq
      cases hq
    refine ⟨(q, s.setName y none), ⟨q, hq, rfl⟩, ?_, rfl⟩
    simp [findObj_storeObj, hne, hx]

theorem smart_moveAssign_ok (x y : Nat) (s s1 : State) :
    SmartPerson.moveAssign x y s = .ok s1 ↔
      ∃ p q, findObj s.objs x = some p ∧ findObj s.objs y = some q ∧
        s1 = State.delete ⟨s.heap, storeObj (storeObj s.objs y none) x q, s.out⟩
          (if x = y then none else p) := by
  simp only [SmartPerson.moveAssign, uniqueRelease, uniqueReset, bind_ok_iff,
    State.getName_ok, pure_ok_iff]
  constructor
  · rintro ⟨p, hp, ⟨q, s2⟩, ⟨q2, hq, h⟩, old, hold, rfl⟩
    cases h
    simp only [State.setName_objs, findObj_storeObj] at hold
    refine ⟨p, q, hp, hq, ?_⟩
    by_cases hxy : x = y
    · subst hxy
      simp only [if_true, hq, Option.map_some'] at hold
      cases hold
      simp [State.setName]
    · simp only [hxy, if_false, hp] at hold
      cases hold
      simp [State.setName, hxy]
  · rintro ⟨p, q, hp, hq, rfl⟩
    refine ⟨p, hp, (q, s.setName y none), ⟨q, hq, rfl⟩, if x = y then none else p, ?_, ?_⟩
    · simp only [State.setName_objs, findObj_storeObj]
      by_cases hxy : x = y
      · subst hxy
        simp [hq]
      · simp [hxy, hp]
    · simp [State.setName]

/-! ## The single-owner invariant is preserved -/

theorem WF_init : WF State.init :=
  ⟨fun x a h => by simp [State.init, findObj] at h,
   fun x y a h => by simp [State.init, findObj] at h⟩

theorem WF_write (s : State) (t : String) (hwf : WF s) : WF (s.write t) :=
  ⟨hwf.valid, hwf.unique⟩

/-- A fresh buffer given to a new object. -/
theorem WF_alloc_begin (s : State) (x : Nat) (t : String) (hwf : WF s) :
    WF ⟨s.heap ++ [⟨t, 0⟩], (x, some s.heap.length) :: s.objs, s.out⟩ := by
  constructor
  · intro z a hz
    simp only [findObj_cons] at hz
    rw [liveAt_append]
    by_cases e : z = x
    · simp only [e, if_true, Option.some.injEq] at hz
      exact Or.inr hz.symm
    · simp only [e, if_false] at hz
      exact Or.inl (hwf.valid z a hz)
  · intro z w a hz hw
    simp only [findObj_cons] at hz hw
    by_cases ez : z = x <;> by_cases ew : w = x
    · rw [ez, ew]
    · simp only [ez, if_true, Option.some.injEq] at hz
      simp only [ew, if_false] at hw
      have := liveAt_lt (hwf.valid w a hw)
      omega
    · simp only [ew, if_true, Option.some.injEq] at hw
      simp only [ez, if_false] at hz
      have := liveAt_lt (hwf.valid z a hz)
      omega
    · simp only [ez, if_false] at hz
      simp only [ew, if_false] at hw
      exact hwf.unique z w a hz hw

/-- A fresh buffer stored into an existing object. -/
theorem WF_alloc_store (s : State) (x : Nat) (t : String) (hwf : WF s) :
    WF ⟨s.heap ++ [⟨t, 0⟩], storeObj s.objs x (some s.heap.length), s.out⟩ := by
  constructor
  · intro z a hz
    simp only [findObj_storeObj] at hz
    rw [liveAt_append]
    by_cases e : z = x
    · simp only [e, if_true] at hz
      cases hx : findObj s.objs x with
      | none => simp [hx] at hz
      | some p =>
        simp only [hx, Option.map_some', Option.some.injEq] at hz
        exact Or.inr hz.symm
    · simp only [e, if_false] at hz
      exact Or.inl (hwf.valid z a hz)
  · intro z w a hz hw
    simp only [findObj_storeObj] at hz hw
    have key : ∀ u, (findObj s.objs x).map (fun _ => some s.heap.length) = some (some a) →
        findObj s.objs u = some (some a) → False := by
      intro u h1 h2
      cases hx : findObj s.objs x with
      | none => simp [hx] at h1
      | some p =>
        simp only [hx, Option.map_some', Option.some.injEq] at h1
        have := liveAt_lt (hwf.valid u a h2)
        omega
    by_cases ez : z = x <;> by_cases ew : w = x
    · rw [ez, ew]
    · simp only [ez, if_true] at hz
      simp only [ew, if_false] at hw
      exact (key w hz hw).elim
    · simp only [ew, if_true] at hw
      simp only [ez, if_false] at hz
      exact (key z hw hz).elim
    · simp only [ez, if_false] at hz
      simp only [ew, if_false] at hw
      exact hwf.unique z w a hz hw

/-- Who holds what after `this.pName_ = rhs.pName_; rhs.pName_ = nullptr`. -/
theorem findObj_person_move (l : List (Nat × Ptr)) (x y z : Nat) (q : Ptr) (a : Nat)
    (hq : findObj l y = some q)
    (hz : findObj (storeObj (storeObj l x q) y none) z = some (some a)) :
    z ≠ y ∧ ((z = x ∧ q = some a) ∨ (z ≠ x ∧ findObj l z = some (some a))) := by
  simp only [findObj_storeObj] at hz
  by_cases ezy : z = y
  · exfalso
    subst ezy
    simp only [if_true] at hz
    by_cases e : z = x
    · subst e
      simp [hq] at hz
    · simp [e, hq] at hz
  · refine ⟨ezy, ?_⟩
    simp only [ezy, if_false] at hz
    by_cases e : z = x
    · left
      subst e
      simp only [if_true] at hz
      cases hx : findObj l z with
      | none => simp [hx] at hz
      | some p =>
        simp only [hx, Option.map_some', Option.some.injEq] at hz
        exact ⟨rfl, hz⟩
    · right
      simp only [e, if_false] at hz
      exact ⟨e, hz⟩

/-- Who holds what after `this.pName_.reset(rhs.pName_.release())`. -/
theorem findObj_smart_move (l : List (Nat × Ptr)) (x y z : Nat) (q : Ptr) (a : Nat)
    (hq : findObj l y = some q)
    (hz : findObj (storeObj (storeObj l y none) x q) z = some (some a)) :
    (z = x ∧ q = some a) ∨ (z ≠ x ∧ z ≠ y ∧ findObj l z = some (some a)) := by
  simp only [findObj_storeObj] at hz
  by_cases e : z = x
  · left
    subst e
    simp only [if_true] at hz
    by_cases ezy : z = y
    · subst ezy
      simp only [if_true, hq, Option.map_some', Option.some.injEq] at hz
      exact ⟨rfl, hz⟩
    · simp only [ezy, if_false] at hz
      cases hx : findObj l z with
      | none => simp [hx] at hz
      | some p =>
        simp only [hx, Option.map_some', Option.some.injEq] at hz
        exact ⟨rfl, hz⟩
  · right
    simp only [e, if_false] at hz
    by_cases ezy : z = y
    · subst ezy
      simp [hq] at hz
    · simp only [ezy, if_false] at hz
      exact ⟨e, ezy, hz⟩

theorem WF_person_move (s : State) (x y : Nat) (q : Ptr) (hwf : WF s)
    (hq : findObj s.objs y = some q) :
    WF ⟨s.heap, storeObj (storeObj s.objs x q) y none, s.out⟩ := by
  constructor
  · intro z a hz
    obtain ⟨_, h | h⟩ := findObj_person_move s.objs x y z q a hq hz
    · exact hwf.valid y a (by rw [hq, h.2])
    · exact hwf.valid z a h.2
  · intro z w a hz hw
    obtain ⟨hzy, h1⟩ := findObj_person_move s.objs x y z q a hq hz
    obtain ⟨hwy, h2⟩ := findObj_person_move s.objs x y w q a hq hw
    rcases h1 with h1 | h1 <;> rcases h2 with h2 | h2
    · rw [h1.1, h2.1]
    · exact (hwy (hwf.unique w y a h2.2 (by rw [hq, h1.2]))).elim
    · exact (hzy (hwf.unique z y a h1.2 (by rw [hq, h2.2]))).elim
    · exact hwf.unique z w a h1.2 h2.2

theorem WF_smart_move (s : State) (x y : Nat) (q : Ptr) (hwf : WF s)
    (hq : findObj s.objs y = some q) :
    WF ⟨s.heap, storeObj (storeObj s.objs y none) x q, s.out⟩ := by
  constructor
  · intro z a hz
    rcases findObj_smart_move s.objs x y z q a hq hz with h | h
    · exact hwf.valid y a (by rw [hq, h.2])
    · exact hwf.valid z a h.2.2
  · intro z w a hz hw
    rcases findObj_smart_move s.objs x y z q a hq hz with h1 | h1 <;>
      rcases findObj_smart_move s.objs x y w q a hq hw with h2 | h2
    · rw [h1.1, h2.1]
    · exact (h2.2.1 (hwf.unique w y a h2.2.2 (by rw [hq, h1.2]))).elim
    · exact (h1.2.1 (hwf.unique z y a h1.2.2 (by rw [hq, h2.2]))).elim
    · exact hwf.unique z w a h1.2.2 h2.2.2

/-- Who holds what after a move construction. -/
theorem findObj_move_begin (l : List (Nat × Ptr)) (x y z : Nat) (q : Ptr) (a : Nat)
    (hq : findObj l y = some q)
    (hz : findObj ((x, q) :: storeObj l y none) z = some (some a)) :
    (z = x ∧ q = some a) ∨ (z ≠ x ∧ z ≠ y ∧ findObj l z = some (some a)) := by
  simp only [findObj_cons, findObj_storeObj] at hz
  by_cases e : z = x
  · left
    simp only [e, if_true, Option.some.injEq] at hz
    exact ⟨e, hz⟩
  · right
    simp only [e, if_false] at hz
    by_cases ezy : z = y
    · subst ezy
      simp [hq] at hz
    · simp only [ezy, if_false] at hz
      exact ⟨e, ezy, hz⟩

theorem WF_move_begin (s : State) (x y : Nat) (q : Ptr) (hwf : WF s)
    (hq : findObj s.objs y = some q) :
    WF ⟨s.heap, (x, q) :: storeObj s.objs y none, s.out⟩ := by
  constructor
  · intro z a hz
    rcases findObj_move_begin s.objs x y z q a hq hz with h | h
    · exact hwf.valid y a (by rw [hq, h.2])
    · exact hwf.valid z a h.2.2
  · intro z w a hz hw
    rcases findObj_move_begin s.objs x y z q a hq hz with h1 | h1 <;>
      rcases findObj_move_begin s.objs x y w q a hq hw with h2 | h2
    · rw [h1.1, h2.1]
    · exact (h2.2.1 (hwf.unique w y a h2.2.2 (by rw [hq, h1.2]))).elim
    · exact (h1.2.1 (hwf.unique z y a h1.2.2 (by rw [hq, h2.2]))).elim
    · exact hwf.unique z w a h1.2.2 h2.2.2

/-- Deleting a pointer that no live object holds keeps the invariant. -/
theorem WF_delete_unowned (s : State) (p : Ptr) (hwf : WF s)
    (hun : ∀ z a, p = some a → findObj s.objs z ≠ some (some a)) : WF (s.delete p) := by
  constructor
  · intro z a hz
    rw [State.delete_objs] at hz
    rw [State.liveAt_delete]
    refine ⟨hwf.valid z a hz, ?_⟩
    intro hp
    exact hun z a hp hz
  · intro z w a hz hw
    rw [State.delete_objs] at hz hw
    exact hwf.unique z w a hz hw

/-- The destructor: the held buffer is deleted and the object goes away. -/
theorem WF_delete_finish (s : State) (x : Nat) (p : Ptr) (hwf : WF s)
    (hp : findObj s.objs x = some p) : WF ((s.delete p).finish x) := by
  constructor
  · intro z a hz
    simp only [State.finish_objs, State.delete_objs, findObj_dropObj] at hz
    rw [State.finish_heap, State.liveAt_delete]
    by_cases e : z = x
    · simp [e] at hz
    · simp only [e, if_false] at hz
      refine ⟨hwf.valid z a hz, ?_⟩
      intro hpa
      rw [hpa] at hp
      exact e (hwf.unique z x a hz hp)
  · intro z w a hz hw
    simp only [State.finish_objs, State.delete_objs, findObj_dropObj] at hz hw
    by_cases ez : z = x
    · simp [ez] at hz
    · by_cases ew : w = x
      · simp [ew] at hw
      · simp only [ez, if_false] at hz
        simp only [ew, if_false] at hw
        exact hwf.unique z w a hz hw

theorem WF_smart_copyAssign (s : State) (x : Nat) (t : String) (p : Ptr) (hwf : WF s)
    (hp : findObj s.objs x = some p) :
    WF (State.delete
      ⟨s.heap ++ [⟨t, 0⟩], storeObj s.objs x (some s.heap.length), s.out⟩ p) := by
  apply WF_delete_unowned _ _ (WF_alloc_store s x t hwf)
  intro z a hpa hz
  subst hpa
  have hlt := liveAt_lt (hwf.valid x a hp)
  simp only [findObj_storeObj] at hz
  by_cases e : z = x
  · simp only [e, if_true, hp, Option.map_some', Option.some.injEq] at hz
    omega
  · simp only [e, if_false] at hz
    exact e (hwf.unique z x a hz hp)

theorem WF_smart_moveAssign (s : State) (x y : Nat) (p q : Ptr) (hwf : WF s)
    (hp : findObj s.objs x = some p) (hq : findObj s.objs y = some q) :
    WF (State.delete ⟨s.heap, storeObj (storeObj s.objs y none) x q, s.out⟩
      (if x = y then none else p)) := by
  apply WF_delete_unowned _ _ (WF_smart_move s x y q hwf hq)
  intro z a hpa hz
  by_cases hxy : x = y
  · simp [hxy] at hpa
  · simp only [hxy, if_false] at hpa
    subst hpa
    rcases findObj_smart_move s.objs x y z q a hq hz with h | h
    · exact hxy (hwf.unique x y a hp (by rw [hq, h.2]))
    · exact h.1 (hwf.unique z x a h.2.2 hp)

/-- Every operation of either class preserves the single-owner invariant. -/
theorem step_WF (V : Variant) (op : Op) (s s1 : State) (hwf : WF s)
    (h : step V op s = .ok s1) : WF s1 := by
  cases V <;> cases op <;> simp only [step] at h
  case person.construct x t =>
    obtain ⟨_, rfl⟩ := (person_ctor_ok x t s s1).1 h
    exact WF_alloc_begin s x t hwf
  case person.copyConstruct x y =>
    obtain ⟨a, t, _, _, _, rfl⟩ := (person_copyCtor_ok x y s s1).1 h
    exact WF_alloc_begin s x t hwf
  case person.copyAssign x y =>
    obtain ⟨_, h2⟩ := (person_copyAssign_ok x y s s1).1 h
    rcases h2 with ⟨_, rfl⟩ | ⟨_, a, t, _, _, rfl⟩
    · exact hwf
    · exact WF_alloc_store s x t hwf
  case person.moveConstruct x y =>
    obtain ⟨q, hq, _, rfl⟩ := (person_moveCtor_ok x y s s1).1 h
    exact WF_move_begin s x y q hwf hq
  case person.moveAssign x y =>
    obtain ⟨p, q, _, hq, rfl⟩ := (person_moveAssign_ok x y s s1).1 h
    exact WF_person_move s x y q hwf hq
  case person.destroy x =>
    obtain ⟨p, hp, rfl⟩ := (person_dtor_ok x s s1).1 h
    exact WF_delete_finish s x p hwf hp
  case person.print x =>
    obtain ⟨a, t, _, _, rfl⟩ := (person_printName_ok x s s1).1 h
    exact WF_write s t hwf
  case smart.construct x t =>
    obtain ⟨_, rfl⟩ := (smart_ctor_ok x t s s1).1 h
    exact WF_alloc_begin s x t hwf
  case smart.copyConstruct x y =>
    obtain ⟨a, t, _, _, _, rfl⟩ := (smart_copyCtor_ok x y s s1).1 h
    exact WF_alloc_begin s x t hwf
  case smart.copyAssign x y =>
    obtain ⟨p, hp, h2⟩ := (smart_copyAssign_ok x y s s1).1 h
    rcases h2 with ⟨_, rfl⟩ | ⟨_, a, t, _, _, rfl⟩
    · exact hwf
    · exact WF_smart_copyAssign s x t p hwf hp
  case smart.moveConstruct x y =>
    obtain ⟨q, hq, _, rfl⟩ := (smart_moveCtor_ok x y s s1).1 h
    exact WF_move_begin s x y q hwf hq
  case smart.moveAssign x y =>
    obtain ⟨p, q, hp, hq, rfl⟩ := (smart_moveAssign_ok x y s s1).1 h
    exact WF_smart_moveAssign s x y p q hwf hp hq
  case smart.destroy x =>
    obtain ⟨p, hp, rfl⟩ := (smart_dtor_ok x s s1).1 h
    exact WF_delete_finish s x p hwf hp
  case smart.print x =>
    obtain ⟨a, t, _, _, rfl⟩ := (smart_printName_ok x s s1).1 h
    exact WF_write s t hwf

theorem run_cons_ok (V : Variant) (op : Op) (ops : List Op) (s s2 : State) :
    run V (op :: ops) s = .ok s2 ↔ ∃ s1, step V op s = .ok s1 ∧ run V ops s1 = .ok s2 := by
  simp only [run]
  cases h : step V op s <;> simp

theorem run_WF (V : Variant) (ops : List Op) (s s1 : State) (hwf : WF s)
    (h : run V ops s = .ok s1) : WF s1 := by
  induction ops generalizing s with
  | nil =>
    simp only [run, Except.ok.injEq] at h
    exact h ▸ hwf
  | cons op ops ih =>
    obtain ⟨s2, h1, h2⟩ := (run_cons_ok V op ops s s1).1 h
    exact ih s2 (step_WF V op s s2 hwf h1) h2

/-! ## Release accounting of the `unique_ptr` variant -/

theorem getElem?_alloc (h : List Buffer) (t : String) (a : Nat) (b : Buffer)
    (hb : (h ++ [(⟨t, 0⟩ : Buffer)])[a]? = some b) :
    h[a]? = some b ∨ (a = h.length ∧ b = ⟨t, 0⟩) := by
  by_cases hlt : a < h.length
  · left
    rw [List.getElem?_append_left hlt] at hb
    exact hb
  · right
    by_cases e : a = h.length
    · subst e
      simp at hb
      exact ⟨rfl, hb.symm⟩
    · have hgt : h.length + 1 ≤ a := by omega
      have : (h ++ [(⟨t, 0⟩ : Buffer)])[a]? = none :=
        List.getElem?_eq_none (by simpa using hgt)
      rw [this] at hb
      cases hb

theorem once_alloc (h : List Buffer) (t : String)
    (hon : ∀ (a : Nat) (b : Buffer), h[a]? = some b → b.released ≤ 1) :
    ∀ (a : Nat) (b : Buffer), (h ++ [(⟨t, 0⟩ : Buffer)])[a]? = some b → b.released ≤ 1 := by
  intro a b hb
  rcases getElem?_alloc h t a b hb with h1 | ⟨_, rfl⟩
  · exact hon a b h1
  · exact Nat.zero_le 1

theorem once_delete (s : State) (p : Ptr)
    (hon : ∀ (a : Nat) (b : Buffer), s.heap[a]? = some b → b.released ≤ 1)
    (hlive : ∀ a, p = some a → LiveAt s.heap a) :
    ∀ (a : Nat) (b : Buffer), (s.delete p).heap[a]? = some b → b.released ≤ 1 := by
  intro a b hb
  rw [State.delete_getElem?] at hb
  by_cases e : p = some a
  · obtain ⟨b0, hb0, hr⟩ := hlive a e
    simp only [e, if_true, hb0, Option.map_some', Option.some.injEq] at hb
    rw [← hb]
    simp [hr]
  · simp only [e, if_false] at hb
    exact hon a b hb

theorem Tight_init : Tight State.init :=
  ⟨fun a b h => by simp [State.init] at h,
   fun a h => by
    have := liveAt_lt h
    simp [State.init] at this⟩

theorem Tight_write (s : State) (t : String) (ht : Tight s) : Tight (s.write t) :=
  ⟨ht.once, ht.owned⟩

theorem Tight_alloc_begin (s : State) (x : Nat) (t : String) (ht : Tight s)
    (hx : findObj s.objs x = none) :
    Tight ⟨s.heap ++ [⟨t, 0⟩], (x, some s.heap.length) :: s.objs, s.out⟩ := by
  constructor
  · exact once_alloc s.heap t ht.once
  · intro a ha
    rcases (liveAt_append s.heap t a).1 ha with h | h
    · obtain ⟨z, hz⟩ := ht.owned a h
      have hzx : ¬ z = x := by
        rintro rfl
        rw [hx] at hz
        cases hz
      exact ⟨z, by simp only [findObj_cons, hzx, if_false]; exact hz⟩
    · exact ⟨x, by simp [findObj_cons, h]⟩

theorem Tight_smart_copyAssign (s : State) (x : Nat) (t : String) (p : Ptr) (hwf : WF s)
    (ht : Tight s) (hp : findObj s.objs x = some p) :
    Tight (State.delete
      ⟨s.heap ++ [⟨t, 0⟩], storeObj s.objs x (some s.heap.length), s.out⟩ p) := by
  constructor
  · apply once_delete _ _ (once_alloc s.heap t ht.once)
    intro a hpa
    subst hpa
    exact (liveAt_append s.heap t a).2 (Or.inl (hwf.valid x a hp))
  · intro a ha
    rw [State.liveAt_delete] at ha
    obtain ⟨ha, hne⟩ := ha
    simp only [State.delete_objs, findObj_storeObj]
    rcases (liveAt_append s.heap t a).1 ha with h | h
    · obtain ⟨z, hz⟩ := ht.owned a h
      have hzx : ¬ z = x := by
        rintro rfl
        rw [hp] at hz
        cases hz
        exact hne rfl
      exact ⟨z, by simp only [hzx, if_false]; exact hz⟩
    · exact ⟨x, by simp [hp, h]⟩

theorem Tight_move_begin (s : State) (x y : Nat) (q : Ptr) (ht : Tight s)
    (hq : findObj s.objs y = some q) (hx : findObj s.objs x = none) :
    Tight ⟨s.heap, (x, q) :: storeObj s.objs y none, s.out⟩ := by
  constructor
  · exact ht.once
  · intro a ha
    obtain ⟨z, hz⟩ := ht.owned a ha
    simp only [findObj_cons, findObj_storeObj]
    by_cases ezy : z = y
    · subst ezy
      rw [hq] at hz
      cases hz
      exact ⟨x, by simp⟩
    · have hzx : ¬ z = x := by
        rintro rfl
        rw [hx] at hz
        cases hz
      exact ⟨z, by simp only [hzx, ezy, if_false]; exact hz⟩

theorem Tight_smart_moveAssign (s : State) (x y : Nat) (p q : Ptr) (hwf : WF s)
    (ht : Tight s) (hp : findObj s.objs x = some p) (hq : findObj s.objs y = some q) :
    Tight (State.delete ⟨s.heap, storeObj (storeObj s.objs y none) x q, s.out⟩
      (if x = y then none else p)) := by
  constructor
  · apply once_delete (⟨s.heap, storeObj (storeObj s.objs y none) x q, s.out⟩ : State) _
      ht.once
    intro a hpa
    by_cases hxy : x = y
    · simp [hxy] at hpa
    · simp only [hxy, if_false] at hpa
      subst hpa
      exact hwf.valid x a hp
  · intro a ha
    rw [State.liveAt_delete] at ha
    obtain ⟨ha, hne⟩ := ha
    obtain ⟨z, hz⟩ := ht.owned a ha
    simp only [State.delete_objs, findObj_storeObj]
    by_cases hxy : x = y
    · subst hxy
      by_cases ezx : z = x
      · subst ezx
        exact ⟨z, by simp [hq, hz]; rw [hq] at hz; cases hz; rfl⟩
      · exact ⟨z, by simp only [ezx, if_false]; exact hz⟩
    · simp only [hxy, if_false] at hne
      by_cases ezy : z = y
      · subst ezy
        rw [hq] at hz
        cases hz
        exact ⟨x, by simp [hxy, hp]⟩
      · have ezx : ¬ z = x := by
          rintro rfl
          rw [hp] at hz
          cases hz
          exact hne rfl
        exact ⟨z, by simp only [ezx, ezy, if_false]; exact hz⟩

theorem Tight_delete_finish (s : State) (x : Nat) (p : Ptr) (hwf : WF s) (ht : Tight s)
    (hp : findObj s.objs x = some p) : Tight ((s.delete p).finish x) := by
  constructor
  · apply once_delete s p ht.once
    intro a hpa
    subst hpa
    exact hwf.valid x a hp
  · intro a ha
    rw [State.finish_heap, State.liveAt_delete] at ha
    obtain ⟨ha, hne⟩ := ha
    obtain ⟨z, hz⟩ := ht.owned a ha
    have ezx : ¬ z = x := by
      rintro rfl
      rw [hp] at hz
      cases hz
      exact hne rfl
    exact ⟨z, by
      simp only [State.finish_objs, State.delete_objs, findObj_dropObj, ezx, if_false]
      exact hz⟩

theorem step_smart_Tight (op : Op) (s s1 : State) (hwf : WF s) (ht : Tight s)
    (h : step .smart op s = .ok s1) : Tight s1 := by
  cases op <;> simp only [step] at h
  case construct x t =>
    obtain ⟨hx, rfl⟩ := (smart_ctor_ok x t s s1).1 h
    exact Tight_alloc_begin s x t ht hx
  case copyConstruct x y =>
    obtain ⟨a, t, _, _, hx, rfl⟩ := (smart_copyCtor_ok x y s s1).1 h
    exact Tight_alloc_begin s x t ht hx
  case copyAssign x y =>
    obtain ⟨p, hp, h2⟩ := (smart_copyAssign_ok x y s s1).1 h
    rcases h2 with ⟨_, rfl⟩ | ⟨_, a, t, _, _, rfl⟩
    · exact ht
    · exact Tight_smart_copyAssign s x t p hwf ht hp
  case moveConstruct x y =>
    obtain ⟨q, hq, hx, rfl⟩ := (smart_moveCtor_ok x y s s1).1 h
    exact Tight_move_begin s x y q ht hq hx
  case moveAssign x y =>
    obtain ⟨p, q, hp, hq, rfl⟩ := (smart_moveAssign_ok x y s s1).1 h
    exact Tight_smart_moveAssign s x y p q hwf ht hp hq
  case destroy x =>
    obtain ⟨p, hp, rfl⟩ := (smart_dtor_ok x s s1).1 h
    exact Tight_delete_finish s x p hwf ht hp
  case print x =>
    obtain ⟨a, t, _, _, rfl⟩ := (smart_printName_ok x s s1).1 h
    exact Tight_write s t ht

theorem run_smart_Tight (ops : List Op) (s s1 : State) (hwf : WF s) (ht : Tight s)
    (h : run .smart ops s = .ok s1) : Tight s1 := by
  induction ops generalizing s with
  | nil =>
    simp only [run, Except.ok.injEq] at h
    exact h ▸ ht
  | cons op ops ih =>
    obtain ⟨s2, h1, h2⟩ := (run_cons_ok .smart op ops s s1).1 h
    exact ih s2 (step_WF .smart op s s2 hwf h1) (step_smart_Tight op s s2 hwf ht h1) h2

/-! ## Consequences of holding a text -/

theorem print_of_holds (V : Variant) (s : State) (x a : Nat) (t : String)
    (h : Holds s x a t) : step V (.print x) s = .ok { s with out := s.out ++ t ++ "\n" } := by
  cases V
  · exact (person_printName_ok x s _).2 ⟨a, t, h.1, h.2, rfl⟩
  · exact (smart_printName_ok x s _).2 ⟨a, t, h.1, h.2, rfl⟩

theorem insertion_of_holds (s : State) (x a : Nat) (t : String) (h : Holds s x a t) :
    Person.insertion x s = .ok { s with out := s.out ++ t ++ "\n" } ∧
      SmartPerson.insertion x s = .ok { s with out := s.out ++ t ++ "\n" } :=
  ⟨(person_printName_ok x s _).2 ⟨a, t, h.1, h.2, rfl⟩,
   (smart_printName_ok x s _).2 ⟨a, t, h.1, h.2, rfl⟩⟩

theorem construct_ok (V : Variant) (s : State) (x : Nat) (t : String)
    (hx : findObj s.objs x = none) :
    step V (.construct x t) s =
      .ok ⟨s.heap ++ [⟨t, 0⟩], (x, some s.heap.length) :: s.objs, s.out⟩ := by
  cases V
  · exact (person_ctor_ok x t s _).2 ⟨hx, rfl⟩
  · exact (smart_ctor_ok x t s _).2 ⟨hx, rfl⟩

theorem holds_construct (s : State) (x : Nat) (t : String) :
    Holds ⟨s.heap ++ [⟨t, 0⟩], (x, some s.heap.length) :: s.objs, s.out⟩ x s.heap.length t := by
  constructor
  · simp [findObj_cons]
  · simp

theorem holds_lt {s : State} {v a : Nat} {t : String} (h : Holds s v a t) :
    a < s.heap.length :=
  liveAt_lt ⟨_, h.2, rfl⟩

theorem holds_delete (s : State) (p : Ptr) (x a : Nat) (t : String) (h : Holds s x a t)
    (hp : p ≠ some a) : Holds (s.delete p) x a t := by
  constructor
  · rw [State.delete_objs]
    exact h.1
  · rw [State.delete_getElem?]
    simp only [hp, if_false]
    exact h.2

theorem destroy_ok (V : Variant) (s : State) (x : Nat) (p : Ptr)
    (hp : findObj s.objs x = some p) :
    step V (.destroy x) s = .ok ((s.delete p).finish x) := by
  cases V
  · exact (person_dtor_ok x s _).2 ⟨p, hp, rfl⟩
  · exact (smart_dtor_ok x s _).2 ⟨p, hp, rfl⟩

/-- Once the copy and the original hold different buffers, destroying the original
leaves the copy intact. -/
theorem copyIndependent_of_holds (V : Variant) (s s1 : State) (v a c a' : Nat) (t : String)
    (hc : Holds s1 c a' t) (hne : a' ≠ a) (hv : Holds s1 v a t) (hcv : c ≠ v)
    (hout : s1.out = s.out) : CopyIndependent V s s1 v a c t := by
  have h2 : Holds ((s1.delete (some a)).finish v) c a' t := by
    have hd := holds_delete s1 (some a) c a' t hc (by
      intro e
      cases e
      exact hne rfl)
    constructor
    · simp only [State.finish_objs, findObj_dropObj, hcv, if_false]
      exact hd.1
    · exact hd.2
  refine ⟨a', hc, hne, hv, hout, _, destroy_ok V s1 v (some a) hv.1, h2, ?_⟩
  have := print_of_holds V _ c a' t h2
  rw [this]
  simp [hout]

theorem holds_alloc_left (h : List Buffer) (t u : String) (a : Nat)
    (ha : h[a]? = some ⟨u, 0⟩) : (h ++ [(⟨t, 0⟩ : Buffer)])[a]? = some ⟨u, 0⟩ := by
  have hlt : a < h.length := liveAt_lt ⟨_, ha, rfl⟩
  rw [List.getElem?_append_left hlt]
  exact ha

/-! ## The two classes agree away from self-move -/

theorem delete_texts (s : State) (p : Ptr) :
    (s.delete p).heap.map Buffer.text = s.heap.map Buffer.text := by
  apply List.ext_getElem?
  intro n
  simp only [List.getElem?_map, State.delete_getElem?]
  by_cases e : p = some n
  · simp only [e, if_true]
    cases s.heap[n]? <;> simp
  · simp only [e, if_false]

theorem texts_length (sp ss : State)
    (h : sp.heap.map Buffer.text = ss.heap.map Buffer.text) :
    sp.heap.length = ss.heap.length := by
  have := congrArg List.length h
  simpa using this

/-- Under the invariant, a pointer held by an object dereferences to the same text in two
states with the same texts. -/
theorem deref_agree (sp ss : State) (x : Nat) (p : Ptr) (hp : WF sp) (hs : WF ss)
    (ho : sp.objs = ss.objs) (ht : sp.heap.map Buffer.text = ss.heap.map Buffer.text)
    (hx : findObj ss.objs x = some p) :
    (p = none ∧ sp.deref p = .error .nullDeref ∧ ss.deref p = .error .nullDeref) ∨
    (∃ a t, p = some a ∧ sp.heap[a]? = some ⟨t, 0⟩ ∧ ss.heap[a]? = some ⟨t, 0⟩ ∧
      sp.deref p = .ok t ∧ ss.deref p = .ok t) := by
  cases p with
  | none => exact Or.inl ⟨rfl, rfl, rfl⟩
  | some a =>
    right
    obtain ⟨⟨t1, r1⟩, h1, hr1⟩ := hp.valid x a (by rw [ho]; exact hx)
    obtain ⟨⟨t2, r2⟩, h2, hr2⟩ := hs.valid x a hx
    simp only at hr1 hr2
    subst hr1
    subst hr2
    have h3 : (sp.heap.map Buffer.text)[a]? = some t1 := by simp [h1]
    have h4 : (ss.heap.map Buffer.text)[a]? = some t2 := by simp [h2]
    rw [ht, h4] at h3
    have e : t2 = t1 := Option.some.inj h3
    subst e
    exact ⟨a, t2, rfl, h1, h2, (State.deref_ok sp _ _).2 ⟨a, rfl, h1⟩,
      (State.deref_ok ss _ _).2 ⟨a, rfl, h2⟩⟩

theorem agree_ctor (x : Nat) (t : String) (sp ss : State)
    (ho : sp.objs = ss.objs) (hout : sp.out = ss.out)
    (ht : sp.heap.map Buffer.text = ss.heap.map Buffer.text) :
    Agree (Person.ctor x t sp) (SmartPerson.ctor x t ss) := by
  have hl := texts_length sp ss ht
  simp only [Person.ctor, SmartPerson.ctor, State.alloc, State.begin, ho]
  cases h : findObj ss.objs x with
  | some q => simp [Agree]
  | none => simp [Agree, ho, hout, ht, hl]

theorem agree_copyCtor (x y : Nat) (sp ss : State) (hp : WF sp) (hs : WF ss)
    (ho : sp.objs = ss.objs) (hout : sp.out = ss.out)
    (ht : sp.heap.map Buffer.text = ss.heap.map Buffer.text) :
    Agree (Person.copyCtor x y sp) (SmartPerson.copyCtor x y ss) := by
  have hl := texts_length sp ss ht
  simp only [Person.copyCtor, SmartPerson.copyCtor, State.getName, ho]
  cases hy : findObj ss.objs y with
  | none => simp [Agree, bind, Except.bind]
  | some q =>
    rcases deref_agree sp ss y q hp hs ho ht hy with ⟨_, h1, h2⟩ | ⟨a, u, _, _, _, h1, h2⟩
    · simp [Agree, bind, Except.bind, h1, h2]
    · simp only [bind, Except.bind, h1, h2, State.alloc, State.begin, ho]
      cases h : findObj ss.objs x with
      | some q => simp [Agree]
      | none => simp [Agree, ho, hout, ht, hl]

theorem storeObj_comm (l : List (Nat × Ptr)) (x y : Nat) (p q : Ptr) (hxy : x ≠ y) :
    storeObj (storeObj l x p) y q = storeObj (storeObj l y q) x p := by
  induction l with
  | nil => rfl
  | cons hd tl ih =>
    obtain ⟨k, r⟩ := hd
    by_cases hkx : k = x <;> by_cases hky : k = y
    · exact (hxy (hkx.symm.trans hky)).elim
    · subst hkx
      simp [storeObj, hky]
    · subst hky
      simp [storeObj, hkx]
    · simp [storeObj, hkx, hky, ih]

theorem agree_copyAssign (x y : Nat) (sp ss : State) (hp : WF sp) (hs : WF ss)
    (ho : sp.objs = ss.objs) (hout : sp.out = ss.out)
    (ht : sp.heap.map Buffer.text = ss.heap.map Buffer.text) :
    Agree (Person.copyAssign x y sp) (SmartPerson.copyAssign x y ss) := by
  have hl := texts_length sp ss ht
  cases hx : findObj ss.objs x with
  | none =>
    simp [Person.copyAssign, SmartPerson.copyAssign, State.getName, ho, hx, Agree, bind,
      Except.bind]
  | some p =>
    by_cases hxy : x = y
    · rw [(person_copyAssign_ok x y sp sp).2 ⟨⟨p, by rw [ho]; exact hx⟩, Or.inl ⟨hxy, rfl⟩⟩,
        (smart_copyAssign_ok x y ss ss).2 ⟨p, hx, Or.inl ⟨hxy, rfl⟩⟩]
      exact ⟨ho, hout, ht⟩
    · cases hy : findObj ss.objs y with
      | none =>
        simp [Person.copyAssign, SmartPerson.copyAssign, State.getName, ho, hx, hy, hxy, Agree,
          bind, Except.bind]
      | some q =>
        rcases deref_agree sp ss y q hp hs ho ht hy with ⟨_, h1, h2⟩ | ⟨a, u, rfl, g1, g2, _, _⟩
        · simp [Person.copyAssign, SmartPerson.copyAssign, State.getName, ho, hx, hy, hxy,
            Agree, bind, Except.bind, h1, h2]
        · rw [(person_copyAssign_ok x y sp _).2 ⟨⟨p, by rw [ho]; exact hx⟩,
              Or.inr ⟨hxy, a, u, by rw [ho]; exact hy, g1, rfl⟩⟩,
            (smart_copyAssign_ok x y ss _).2 ⟨p, hx, Or.inr ⟨hxy, a, u, hy, g2, rfl⟩⟩]
          refine ⟨?_, ?_, ?_⟩
          · simp [ho, hl]
          · simp [hout]
          · rw [delete_texts]
            simp [ht]

theorem agree_moveCtor (x y : Nat) (sp ss : State)
    (ho : sp.objs = ss.objs) (hout : sp.out = ss.out)
    (ht : sp.heap.map Buffer.text = ss.heap.map Buffer.text) :
    Agree (Person.moveCtor x y sp) (SmartPerson.moveCtor x y ss) := by
  cases hy : findObj ss.objs y with
  | none =>
    simp [Person.moveCtor, SmartPerson.moveCtor, uniqueRelease, State.getName, ho, hy, Agree,
      bind, Except.bind]
  | some q =>
    cases hx : findObj ss.objs x with
    | some r =>
      have h1 : findObj (storeObj ss.objs y none) x ≠ none := by
        rw [findObj_storeObj]
        by_cases e : x = y
        · simp [e, hy]
        · simp [e, hx]
      cases h2 : findObj (storeObj ss.objs y none) x with
      | none => exact (h1 h2).elim
      | some r2 =>
        simp [Person.moveCtor, SmartPerson.moveCtor, uniqueRelease, State.getName, State.begin,
          State.setName, ho, hy, hx, h2, Agree, bind, Except.bind, pure, Except.pure]
    | none =>
      rw [(person_moveCtor_ok x y sp _).2 ⟨q, by rw [ho]; exact hy, by rw [ho]; exact hx, rfl⟩,
        (smart_moveCtor_ok x y ss _).2 ⟨q, hy, hx, rfl⟩]
      exact ⟨by simp [ho], hout, ht⟩

theorem agree_moveAssign (x y : Nat) (sp ss : State) (hxy : x ≠ y)
    (ho : sp.objs = ss.objs) (hout : sp.out = ss.out)
    (ht : sp.heap.map Buffer.text = ss.heap.map Buffer.text) :
    Agree (Person.moveAssign x y sp) (SmartPerson.moveAssign x y ss) := by
  cases hx : findObj ss.objs x with
  | none =>
    simp [Person.moveAssign, SmartPerson.moveAssign, State.getName, ho, hx, Agree, bind,
      Except.bind]
  | some p =>
    cases hy : findObj ss.objs y with
    | none =>
      simp [Person.moveAssign, SmartPerson.moveAssign, uniqueRelease, State.getName, ho, hx,
        hy, Agree, bind, Except.bind]
    | some q =>
      rw [(person_moveAssign_ok x y sp _).2 ⟨p, q, by rw [ho]; exact hx, by rw [ho]; exact hy,
          rfl⟩,
        (smart_moveAssign_ok x y ss _).2 ⟨p, q, hx, hy, rfl⟩]
      refine ⟨?_, ?_, ?_⟩
      · simp [ho, storeObj_comm _ x y q none hxy]
      · simp [hout]
      · rw [delete_texts]
        exact ht

theorem agree_dtor (x : Nat) (sp ss : State)
    (ho : sp.objs = ss.objs) (hout : sp.out = ss.out)
    (ht : sp.heap.map Buffer.text = ss.heap.map Buffer.text) :
    Agree (Person.dtor x sp) (SmartPerson.dtor x ss) := by
  cases hx : findObj ss.objs x with
  | none =>
    simp [Person.dtor, SmartPerson.dtor, State.getName, ho, hx, Agree, bind, Except.bind]
  | some p =>
    rw [(person_dtor_ok x sp _).2 ⟨p, by rw [ho]; exact hx, rfl⟩,
      (smart_dtor_ok x ss _).2 ⟨p, hx, rfl⟩]
    refine ⟨?_, ?_, ?_⟩
    · simp [ho]
    · simp [hout]
    · simp only [State.finish_heap, delete_texts]
      exact ht

theorem agree_printName (x : Nat) (sp ss : State) (hp : WF sp) (hs : WF ss)
    (ho : sp.objs = ss.objs) (hout : sp.out = ss.out)
    (ht : sp.heap.map Buffer.text = ss.heap.map Buffer.text) :
    Agree (Person.printName x sp) (SmartPerson.printName x ss) := by
  cases hx : findObj ss.objs x with
  | none =>
    simp [Person.printName, SmartPerson.printName, Person.insertion, SmartPerson.insertion,
      State.getName, ho, hx, Agree, bind, Except.bind]
  | some p =>
    rcases deref_agree sp ss x p hp hs ho ht hx with ⟨_, h1, h2⟩ | ⟨a, u, rfl, g1, g2, _, _⟩
    · simp [Person.printName, SmartPerson.printName, Person.insertion, SmartPerson.insertion,
        State.getName, ho, hx, Agree, bind, Except.bind, h1, h2]
    · rw [(person_printName_ok x sp _).2 ⟨a, u, by rw [ho]; exact hx, g1, rfl⟩,
        (smart_printName_ok x ss _).2 ⟨a, u, hx, g2, rfl⟩]
      exact ⟨ho, by simp [State.write, hout], ht⟩

/-- One operation other than a self-move gives agreeing outcomes in the two classes. -/
theorem step_agree (op : Op) (sp ss : State) (hp : WF sp) (hs : WF ss)
    (ho : sp.objs = ss.objs) (hout : sp.out = ss.out)
    (ht : sp.heap.map Buffer.text = ss.heap.map Buffer.text)
    (hop : op.selfMove = false) :
    Agree (step .person op sp) (step .smart op ss) := by
  cases op <;> simp only [step]
  case construct x t => exact agree_ctor x t sp ss ho hout ht
  case copyConstruct x y => exact agree_copyCtor x y sp ss hp hs ho hout ht
  case copyAssign x y => exact agree_copyAssign x y sp ss hp hs ho hout ht
  case moveConstruct x y => exact agree_moveCtor x y sp ss ho hout ht
  case moveAssign x y =>
    have hxy : x ≠ y := by simpa [Op.selfMove] using hop
    exact agree_moveAssign x y sp ss hxy ho hout ht
  case destroy x => exact agree_dtor x sp ss ho hout ht
  case print x => exact agree_printName x sp ss hp hs ho hout ht

theorem run_agree (ops : List Op) (sp ss : State) (hp : WF sp) (hs : WF ss)
    (ho : sp.objs = ss.objs) (hout : sp.out = ss.out)
    (ht : sp.heap.map Buffer.text = ss.heap.map Buffer.text)
    (hops : ∀ op ∈ ops, op.selfMove = false) :
    Agree (run .person ops sp) (run .smart ops ss) := by
  induction ops generalizing sp ss with
  | nil => exact ⟨ho, hout, ht⟩
  | cons op ops ih =>
    have h1 := step_agree op sp ss hp hs ho hout ht (hops op (List.mem_cons_self _ _))
    simp only [run]
    cases e1 : step .person op sp with
    | error f1 =>
      cases e2 : step .smart op ss with
      | error f2 =>
        rw [e1, e2] at h1
        exact h1
      | ok s2 =>
        rw [e1, e2] at h1
        exact h1.elim
    | ok s1 =>
      cases e2 : step .smart op ss with
      | error f2 =>
        rw [e1, e2] at h1
        exact h1.elim
      | ok s2 =>
        rw [e1, e2] at h1
        obtain ⟨g1, g2, g3⟩ := h1
        exact ih s1 s2 (step_WF .person op sp s1 hp e1) (step_WF .smart op ss s2 hs e2)
          g1 g2 g3 (fun o ho2 => hops o (List.mem_cons_of_mem _ ho2))

theorem observe_of_agree (r1 r2 : Except Fault State) (h : Agree r1 r2) :
    observe r1 = observe r2 := by
  cases r1 with
  | error e1 =>
    cases r2 with
    | error e2 =>
      have : e1 = e2 := h
      rw [this]
    | ok b => exact h.elim
  | ok a =>
    cases r2 with
    | error e2 => exact h.elim
    | ok b =>
      obtain ⟨g1, g2, g3⟩ := h
      simp [observe, State.view, g1, g2, g3]

/-- Apart from self-move-assignment the two classes cannot be told apart: a program
without `x = std::move(x)` run from the empty state ends, in both classes, with the same
fault or with the same output and the same text (or emptiness) in every object. -/
theorem variants_agree_without_self_move (ops : List Op)
    (hops : ∀ op ∈ ops, op.selfMove = false) :
    observe (run .person ops State.init) = observe (run .smart ops State.init) :=
  observe_of_agree _ _ (run_agree ops State.init State.init WF_init WF_init rfl rfl rfl hops)

/-- In `SmartPerson`, `v = std::move(v)` leaves the state as it was. -/
theorem smart_self_move_noop (s : State) (v : Nat) (p : Ptr)
    (hv : findObj s.objs v = some p) : SmartPerson.moveAssign v v s = .ok s := by
  rw [(smart_moveAssign_ok v v s _).2 ⟨p, p, hv, hv, rfl⟩]
  have h1 : ∀ (l : List (Nat × Ptr)), findObj l v = some p →
      storeObj (storeObj l v none) v p = l := by
    intro l
    induction l with
    | nil => intro h; simp [findObj] at h
    | cons hd tl ih =>
      obtain ⟨k, r⟩ := hd
      intro h
      by_cases hk : k = v
      · simp only [findObj, hk, if_true, Option.some.injEq] at h
        simp [storeObj, hk, h]
      · simp only [findObj, hk, if_false] at h
        simp [storeObj, hk, ih h]
  simp [State.delete, h1 s.objs hv]

/-- The `Person` assignment operators never release a buffer: every buffer of the heap
is found unchanged after `a = b` and after `a = std::move(b)`. -/
theorem person_assign_releases_nothing (x y : Nat) (s s1 : State)
    (h : Person.copyAssign x y s = .ok s1 ∨ Person.moveAssign x y s = .ok s1) :
    ∀ (a : Nat) (b : Buffer), s.heap[a]? = some b → s1.heap[a]? = some b := by
  intro a b hb
  rcases h with h | h
  · obtain ⟨_, h2⟩ := (person_copyAssign_ok x y s s1).1 h
    rcases h2 with ⟨_, rfl⟩ | ⟨_, a2, t, _, _, rfl⟩
    · exact hb
    · have hlt : a < s.heap.length := by
        by_contra hge
        rw [List.getElem?_eq_none (Nat.le_of_not_lt hge)] at hb
        cases hb
      show (s.heap ++ [(⟨t, 0⟩ : Buffer)])[a]? = some b
      rw [List.getElem?_append_left hlt]
      exact hb
  · obtain ⟨p, q, _, _, rfl⟩ := (person_moveAssign_ok x y s s1).1 h
    exact hb

/-! ## Claims -/

/-- C1: in both classes, constructing an object from a text `t` under an unused name
succeeds without output, and printing it, through `printName` or through `operator<<`,
appends exactly `t` and one line terminator to the output and changes nothing else; a
default-constructed object (`name = ""`) appends just the line terminator. -/
theorem print_fresh (s : State) (x : Nat) (t : String) (hx : findObj s.objs x = none) :
    (∃ s1, Person.ctor x t s = .ok s1 ∧ s1.out = s.out ∧
      Person.printName x s1 = .ok { s1 with out := s.out ++ t ++ "\n" } ∧
      Person.insertion x s1 = .ok { s1 with out := s.out ++ t ++ "\n" }) ∧
    (∃ s1, SmartPerson.ctor x t s = .ok s1 ∧ s1.out = s.out ∧
      SmartPerson.printName x s1 = .ok { s1 with out := s.out ++ t ++ "\n" } ∧
      SmartPerson.insertion x s1 = .ok { s1 with out := s.out ++ t ++ "\n" }) ∧
    (∃ s1, Person.ctor x "" s = .ok s1 ∧
      Person.printName x s1 = .ok { s1 with out := s.out ++ "\n" }) ∧
    (∃ s1, SmartPerson.ctor x "" s = .ok s1 ∧
      SmartPerson.printName x s1 = .ok { s1 with out := s.out ++ "\n" }) := by
  have h := fun u : String => insertion_of_holds _ x s.heap.length u (holds_construct s x u)
  refine ⟨⟨_, construct_ok .person s x t hx, rfl, (h t).1, (h t).1⟩,
    ⟨_, construct_ok .smart s x t hx, rfl, (h t).2, (h t).2⟩,
    ⟨_, construct_ok .person s x "" hx, ?_⟩, ⟨_, construct_ok .smart s x "" hx, ?_⟩⟩
  · have := (h "").1
    simpa using this
  · have := (h "").2
    simpa using this

theorem print_fresh_witness :
    findObj State.init.objs 1 = none ∧
    (∃ s1, Person.ctor 1 "Zeus" State.init = .ok s1 ∧ s1.out = State.init.out ∧
      Person.printName 1 s1 = .ok { s1 with out := State.init.out ++ "Zeus" ++ "\n" } ∧
      Person.insertion 1 s1 = .ok { s1 with out := State.init.out ++ "Zeus" ++ "\n" }) ∧
    (∃ s1, SmartPerson.ctor 1 "Zeus" State.init = .ok s1 ∧ s1.out = State.init.out ∧
      SmartPerson.printName 1 s1 = .ok { s1 with out := State.init.out ++ "Zeus" ++ "\n" } ∧
      SmartPerson.insertion 1 s1 = .ok { s1 with out := State.init.out ++ "Zeus" ++ "\n" }) ∧
    (∃ s1, Person.ctor 1 "" State.init = .ok s1 ∧
      Person.printName 1 s1 = .ok { s1 with out := State.init.out ++ "\n" }) ∧
    (∃ s1, SmartPerson.ctor 1 "" State.init = .ok s1 ∧
      SmartPerson.printName 1 s1 = .ok { s1 with out := State.init.out ++ "\n" }) :=
  ⟨rfl, print_fresh State.init 1 "Zeus" rfl⟩

/-- C4: in both classes, copy-assigning an object that holds a text to itself yields the
very same state (same buffer, nothing allocated, nothing released, nothing orphaned), and
the object still prints its text. -/
theorem self_copy_assign_noop (V : Variant) (s : State) (v a : Nat) (t : String)
    (hv : Holds s v a t) :
    step V (.copyAssign v v) s = .ok s ∧
      step V (.print v) s = .ok { s with out := s.out ++ t ++ "\n" } := by
  refine ⟨?_, print_of_holds V s v a t hv⟩
  cases V
  · exact (person_copyAssign_ok v v s s).2 ⟨⟨_, hv.1⟩, Or.inl ⟨rfl, rfl⟩⟩
  · exact (smart_copyAssign_ok v v s s).2 ⟨_, hv.1, Or.inl ⟨rfl, rfl⟩⟩

theorem self_copy_assign_noop_witness :
    Holds ⟨[⟨"Zeus", 0⟩], [(2, some 0)], ""⟩ 2 0 "Zeus" ∧
    step .person (.copyAssign 2 2) ⟨[⟨"Zeus", 0⟩], [(2, some 0)], ""⟩ =
      .ok ⟨[⟨"Zeus", 0⟩], [(2, some 0)], ""⟩ ∧
    step .person (.print 2) ⟨[⟨"Zeus", 0⟩], [(2, some 0)], ""⟩ =
      .ok ⟨[⟨"Zeus", 0⟩], [(2, some 0)], "" ++ "Zeus" ++ "\n"⟩ :=
  ⟨⟨rfl, rfl⟩, self_copy_assign_noop .person ⟨[⟨"Zeus", 0⟩], [(2, some 0)], ""⟩ 2 0 "Zeus"
    ⟨rfl, rfl⟩⟩

/-- C5 (the code does not do this): in `Person`, after `a = b` and after `a = move(b)`
with `a` and `b` distinct, the buffer `a` owned before (address 0, text "old") has not
been released (`released = 0`) although no object holds it any more. -/
theorem person_assign_keeps_old_buffer :
    run .person [.construct 1 "old", .construct 2 "new", .copyAssign 1 2] State.init =
      .ok ⟨[⟨"old", 0⟩, ⟨"new", 0⟩, ⟨"new", 0⟩], [(2, some 1), (1, some 2)], ""⟩ ∧
    run .person [.construct 1 "old", .construct 2 "new", .moveAssign 1 2] State.init =
      .ok ⟨[⟨"old", 0⟩, ⟨"new", 0⟩], [(2, none), (1, some 1)], ""⟩ := by
  constructor <;> rfl

/-- C6: in `SmartPerson`, when a sequence of operations started from the empty state has
run to its end and every object has been destroyed, every buffer that was ever allocated
has been released exactly once. -/
theorem smart_released_exactly_once (ops : List Op) (s : State)
    (h : run .smart ops State.init = .ok s) (hdone : s.objs = []) :
    ∀ b ∈ s.heap, b.released = 1 := by
  have hwf := run_WF .smart ops State.init s WF_init h
  have ht := run_smart_Tight ops State.init s WF_init Tight_init h
  intro b hb
  obtain ⟨a, ha⟩ := List.mem_iff_getElem?.1 hb
  have h1 := ht.once a b ha
  by_contra hne
  have h0 : b.released = 0 := by omega
  obtain ⟨z, hz⟩ := ht.owned a ⟨b, ha, h0⟩
  rw [hdone] at hz
  simp [findObj] at hz

theorem smart_released_exactly_once_witness :
    run .smart [.construct 1 "a", .copyConstruct 2 1, .construct 3 "c", .copyAssign 3 2,
        .moveAssign 1 3, .moveConstruct 4 2, .moveAssign 4 4, .print 4,
        .destroy 1, .destroy 2, .destroy 3, .destroy 4] State.init =
      .ok ⟨[⟨"a", 1⟩, ⟨"a", 1⟩, ⟨"c", 1⟩, ⟨"a", 1⟩], [], "a\n"⟩ ∧
    ∀ b ∈ [(⟨"a", 1⟩ : Buffer), ⟨"a", 1⟩, ⟨"c", 1⟩, ⟨"a", 1⟩], b.released = 1 :=
  ⟨rfl, smart_released_exactly_once
    [.construct 1 "a", .copyConstruct 2 1, .construct 3 "c", .copyAssign 3 2,
      .moveAssign 1 3, .moveConstruct 4 2, .moveAssign 4 4, .print 4,
      .destroy 1, .destroy 2, .destroy 3, .destroy 4]
    ⟨[⟨"a", 1⟩, ⟨"a", 1⟩, ⟨"c", 1⟩, ⟨"a", 1⟩], [], "a\n"⟩ rfl rfl⟩

/-- C7: `main` writes exactly "Ivan Vazov\nZeus\nGeorge\nNicky\n" and returns 0; at the
end no object is left and every buffer has been released once. -/
theorem main_output :
    main State.init =
      .ok (0, ⟨[⟨"Ivan Vazov", 1⟩, ⟨"Zeus", 1⟩, ⟨"Ivan Vazov", 1⟩, ⟨"", 1⟩, ⟨"Zeus", 1⟩,
        ⟨"George", 1⟩, ⟨"Nicky", 1⟩], [], "Ivan Vazov\nZeus\nGeorge\nNicky\n"⟩) := by
  rfl

/-- C8 (the code does not do this): the program `T v("a"); v = std::move(v);
v.printName();` dereferences a null pointer with `Person` and prints "a" with
`SmartPerson`; already after the self-move `v` is empty in one class and holds "a" in
the other. -/
theorem variants_differ_on_self_move :
    run .person [.construct 1 "a", .moveAssign 1 1, .print 1] State.init =
      .error .nullDeref ∧
    run .smart [.construct 1 "a", .moveAssign 1 1, .print 1] State.init =
      .ok ⟨[⟨"a", 0⟩], [(1, some 0)], "a\n"⟩ ∧
    run .person [.construct 1 "a", .moveAssign 1 1] State.init =
      .ok ⟨[⟨"a", 0⟩], [(1, none)], ""⟩ ∧
    run .smart [.construct 1 "a", .moveAssign 1 1] State.init =
      .ok ⟨[⟨"a", 0⟩], [(1, some 0)], ""⟩ := by
  refine ⟨?_, ?_, ?_, ?_⟩ <;> rfl

/-- C9: in every state either class reaches from the empty state by construct,
copy-construct, copy-assign, move-construct, move-assign, destroy (and print), no two
live objects hold the same buffer, and every non-null `pName_` of a live object refers
to a buffer that is allocated and not released. -/
theorem single_owner (V : Variant) (ops : List Op) (s : State)
    (h : run V ops State.init = .ok s) :
    (∀ x y a, findObj s.objs x = some (some a) → findObj s.objs y = some (some a) → x = y) ∧
    (∀ x a, findObj s.objs x = some (some a) →
      ∃ b : Buffer, s.heap[a]? = some b ∧ b.released = 0) := by
  have hwf := run_WF V ops State.init s WF_init h
  exact ⟨hwf.unique, hwf.valid⟩

theorem single_owner_witness :
    run .person [.construct 1 "a", .construct 2 "b", .copyAssign 1 2, .moveAssign 2 2,
        .moveConstruct 3 1] State.init =
      .ok ⟨[⟨"a", 0⟩, ⟨"b", 0⟩, ⟨"b", 0⟩], [(3, some 2), (2, none), (1, none)], ""⟩ ∧
    (∀ x y a, findObj [(3, some 2), (2, none), (1, none)] x = some (some a) →
      findObj [(3, some 2), (2, none), (1, none)] y = some (some a) → x = y) ∧
    (∀ x a, findObj [(3, some 2), (2, none), (1, none)] x = some (some a) →
      ∃ b : Buffer, [(⟨"a", 0⟩ : Buffer), ⟨"b", 0⟩, ⟨"b", 0⟩][a]? = some b ∧ b.released = 0) :=
  ⟨rfl, single_owner .person
    [.construct 1 "a", .construct 2 "b", .copyAssign 1 2, .moveAssign 2 2, .moveConstruct 3 1]
    ⟨[⟨"a", 0⟩, ⟨"b", 0⟩, ⟨"b", 0⟩], [(3, some 2), (2, none), (1, none)], ""⟩ rfl⟩

/-- C10 (the code does not do this): in `Person`, `v = std::move(v)` on an object holding
"a" leaves `v` with a null `pName_`; the buffer is still allocated but no object holds it,
and printing `v` dereferences the null pointer. -/
theorem person_self_move_empties :
    Person.moveAssign 1 1 ⟨[⟨"a", 0⟩], [(1, some 0)], ""⟩ =
      .ok ⟨[⟨"a", 0⟩], [(1, none)], ""⟩ ∧
    Person.printName 1 ⟨[⟨"a", 0⟩], [(1, none)], ""⟩ = .error .nullDeref := by
  constructor <;> rfl

/-- C2: in both classes, let `v` hold the text `t` in buffer `a`.  Copy-constructing any
unused name `c` from `v` succeeds, in every state; copy-assigning `v` to any live object
`d` other than `v` succeeds in every state satisfying the single-owner invariant.
Afterwards the copy holds `t` in a buffer other than `a`, `v` still holds `t` in `a`,
and after `v` is destroyed the copy still holds `t` in a live buffer and prints `t`
followed by a line terminator. -/
theorem copy_independence (V : Variant) (s : State) (v a : Nat) (t : String)
    (hv : Holds s v a t) :
    (∀ c, findObj s.objs c = none →
      ∃ s1, step V (.copyConstruct c v) s = .ok s1 ∧ CopyIndependent V s s1 v a c t) ∧
    (∀ d p, WF s → findObj s.objs d = some p → d ≠ v →
      ∃ s1, step V (.copyAssign d v) s = .ok s1 ∧ CopyIndependent V s s1 v a d t) := by
  have hlt := holds_lt hv
  constructor
  · intro c hc
    have hcv : c ≠ v := by
      rintro rfl
      rw [hv.1] at hc
      cases hc
    have hvc : ¬ v = c := fun e => hcv e.symm
    refine ⟨⟨s.heap ++ [⟨t, 0⟩], (c, some s.heap.length) :: s.objs, s.out⟩, ?_, ?_⟩
    · cases V
      · exact (person_copyCtor_ok c v s _).2 ⟨a, t, hv.1, hv.2, hc, rfl⟩
      · exact (smart_copyCtor_ok c v s _).2 ⟨a, t, hv.1, hv.2, hc, rfl⟩
    · apply copyIndependent_of_holds V s _ v a c s.heap.length t (holds_construct s c t)
        (by omega) _ hcv rfl
      exact ⟨by simp only [findObj_cons, hvc, if_false]; exact hv.1,
        holds_alloc_left s.heap t t a hv.2⟩
  · intro d p hwf hd hdv
    have hvd : ¬ v = d := fun e => hdv e.symm
    have hmid : ∀ o : String, Holds ⟨s.heap ++ [⟨t, 0⟩], storeObj s.objs d (some s.heap.length), o⟩
        d s.heap.length t := fun o => ⟨by simp [findObj_storeObj, hd], by simp⟩
    have hmidv : ∀ o : String,
        Holds ⟨s.heap ++ [⟨t, 0⟩], storeObj s.objs d (some s.heap.length), o⟩ v a t :=
      fun o => ⟨by simp only [findObj_storeObj, hvd, if_false]; exact hv.1,
        holds_alloc_left s.heap t t a hv.2⟩
    cases V
    · refine ⟨⟨s.heap ++ [⟨t, 0⟩], storeObj s.objs d (some s.heap.length), s.out⟩, ?_, ?_⟩
      · exact (person_copyAssign_ok d v s _).2
          ⟨⟨p, hd⟩, Or.inr ⟨hdv, a, t, hv.1, hv.2, rfl⟩⟩
      · exact copyIndependent_of_holds .person s _ v a d s.heap.length t (hmid s.out)
          (by omega) (hmidv s.out) hdv rfl
    · refine ⟨State.delete
          ⟨s.heap ++ [⟨t, 0⟩], storeObj s.objs d (some s.heap.length), s.out⟩ p, ?_, ?_⟩
      · exact (smart_copyAssign_ok d v s _).2
          ⟨p, hd, Or.inr ⟨hdv, a, t, hv.1, hv.2, rfl⟩⟩
      · have hp1 : p ≠ some s.heap.length := by
          intro e
          have := liveAt_lt (hwf.valid d s.heap.length (by rw [hd, e]))
          omega
        have hp2 : p ≠ some a := by
          intro e
          exact hdv (hwf.unique d v a (by rw [hd, e]) hv.1)
        exact copyIndependent_of_holds .smart s _ v a d s.heap.length t
          (holds_delete _ p d _ t (hmid s.out) hp1) (by omega)
          (holds_delete _ p v a t (hmidv s.out) hp2) hdv (by simp)

theorem copy_independence_witness :
    (Holds ⟨[⟨"a", 0⟩], [(1, some 0)], ""⟩ 1 0 "a" ∧
      ∃ s1, step .person (.copyConstruct 2 1) ⟨[⟨"a", 0⟩], [(1, some 0)], ""⟩ = .ok s1 ∧
        CopyIndependent .person ⟨[⟨"a", 0⟩], [(1, some 0)], ""⟩ s1 1 0 2 "a") ∧
    WF ⟨[⟨"Ivan Vazov", 0⟩, ⟨"", 0⟩], [(4, some 1), (1, some 0)], ""⟩ ∧
    Holds ⟨[⟨"Ivan Vazov", 0⟩, ⟨"", 0⟩], [(4, some 1), (1, some 0)], ""⟩ 1 0 "Ivan Vazov" ∧
    (∃ s1, step .smart (.copyConstruct 3 1)
        ⟨[⟨"Ivan Vazov", 0⟩, ⟨"", 0⟩], [(4, some 1), (1, some 0)], ""⟩ = .ok s1 ∧
      CopyIndependent .smart ⟨[⟨"Ivan Vazov", 0⟩, ⟨"", 0⟩], [(4, some 1), (1, some 0)], ""⟩
        s1 1 0 3 "Ivan Vazov") ∧
    (∃ s1, step .smart (.copyAssign 4 1)
        ⟨[⟨"Ivan Vazov", 0⟩, ⟨"", 0⟩], [(4, some 1), (1, some 0)], ""⟩ = .ok s1 ∧
      CopyIndependent .smart ⟨[⟨"Ivan Vazov", 0⟩, ⟨"", 0⟩], [(4, some 1), (1, some 0)], ""⟩
        s1 1 0 4 "Ivan Vazov") :=
  have hwf : WF ⟨[⟨"Ivan Vazov", 0⟩, ⟨"", 0⟩], [(4, some 1), (1, some 0)], ""⟩ :=
    run_WF .smart [.construct 1 "Ivan Vazov", .construct 4 ""] State.init _ WF_init rfl
  have h := copy_independence .smart
    ⟨[⟨"Ivan Vazov", 0⟩, ⟨"", 0⟩], [(4, some 1), (1, some 0)], ""⟩ 1 0 "Ivan Vazov" ⟨rfl, rfl⟩
  ⟨⟨⟨rfl, rfl⟩,
      (copy_independence .person ⟨[⟨"a", 0⟩], [(1, some 0)], ""⟩ 1 0 "a" ⟨rfl, rfl⟩).1 2 rfl⟩,
    hwf, ⟨rfl, rfl⟩, h.1 3 rfl, h.2 4 (some 1) hwf rfl (by decide)⟩

/-- C3: in both classes, let `v` hold the text `t` in buffer `a`.  Move-constructing any
unused name `w` from `v` succeeds, in every state; move-assigning `v` to any live object
`u` other than `v` succeeds in every state satisfying the single-owner invariant.
Afterwards the target holds `t` in the same buffer `a`, which has not been released, the
`pName_` of `v` is null, the heap has as many buffers as before, and the target prints
`t` followed by a line terminator. -/
theorem move_transfer (V : Variant) (s : State) (v a : Nat) (t : String)
    (hv : Holds s v a t) :
    (∀ w, findObj s.objs w = none →
      ∃ s1, step V (.moveConstruct w v) s = .ok s1 ∧ Transferred V s s1 v a w t) ∧
    (∀ u p, WF s → findObj s.objs u = some p → u ≠ v →
      ∃ s1, step V (.moveAssign u v) s = .ok s1 ∧ Transferred V s s1 v a u t) := by
  have fin : ∀ (z : Nat) (s1 : State), Holds s1 z a t → findObj s1.objs v = some none →
      s1.heap.length = s.heap.length → s1.out = s.out → Transferred V s s1 v a z t := by
    intro z s1 h1 h2 h3 h4
    refine ⟨h1, h2, h3, h4, ?_⟩
    rw [print_of_holds V s1 z a t h1, h4]
  constructor
  · intro w hw
    have hwv : w ≠ v := by
      rintro rfl
      rw [hv.1] at hw
      cases hw
    have hvw : ¬ v = w := fun e => hwv e.symm
    refine ⟨⟨s.heap, (w, some a) :: storeObj s.objs v none, s.out⟩, ?_, ?_⟩
    · cases V
      · exact (person_moveCtor_ok w v s _).2 ⟨some a, hv.1, hw, rfl⟩
      · exact (smart_moveCtor_ok w v s _).2 ⟨some a, hv.1, hw, rfl⟩
    · refine fin w _ ⟨?_, hv.2⟩ ?_ rfl rfl
      · simp [findObj_cons]
      · simp [findObj_cons, findObj_storeObj, hvw, hv.1]
  · intro u p hwf hu huv
    have hvu : ¬ v = u := fun e => huv e.symm
    cases V
    · refine ⟨⟨s.heap, storeObj (storeObj s.objs u (some a)) v none, s.out⟩, ?_, ?_⟩
      · exact (person_moveAssign_ok u v s _).2 ⟨p, some a, hu, hv.1, rfl⟩
      · refine fin u _ ⟨?_, hv.2⟩ ?_ rfl rfl
        · simp [findObj_storeObj, huv, hu]
        · simp [findObj_storeObj, hvu, hv.1]
    · refine ⟨State.delete ⟨s.heap, storeObj (storeObj s.objs v none) u (some a), s.out⟩
          (if u = v then none else p), ?_, ?_⟩
      · exact (smart_moveAssign_ok u v s _).2 ⟨p, some a, hu, hv.1, rfl⟩
      · have hp2 : (if u = v then none else p) ≠ some a := by
          simp only [huv, if_false]
          intro e
          exact huv (hwf.unique u v a (by rw [hu, e]) hv.1)
        refine fin u _ (holds_delete _ _ u a t ⟨?_, hv.2⟩ hp2) ?_ (by simp) (by simp)
        · simp [findObj_storeObj, huv, hu]
        · simp [findObj_storeObj, hvu, hv.1]

theorem move_transfer_witness :
    (Holds ⟨[⟨"a", 0⟩], [(1, some 0)], ""⟩ 1 0 "a" ∧
      ∃ s1, step .person (.moveConstruct 2 1) ⟨[⟨"a", 0⟩], [(1, some 0)], ""⟩ = .ok s1 ∧
        Transferred .person ⟨[⟨"a", 0⟩], [(1, some 0)], ""⟩ s1 1 0 2 "a") ∧
    WF ⟨[⟨"George", 0⟩, ⟨"Nicky", 0⟩], [(2, some 1), (1, some 0)], ""⟩ ∧
    Holds ⟨[⟨"George", 0⟩, ⟨"Nicky", 0⟩], [(2, some 1), (1, some 0)], ""⟩ 1 0 "George" ∧
    (∃ s1, step .smart (.moveConstruct 3 1)
        ⟨[⟨"George", 0⟩, ⟨"Nicky", 0⟩], [(2, some 1), (1, some 0)], ""⟩ = .ok s1 ∧
      Transferred .smart ⟨[⟨"George", 0⟩, ⟨"Nicky", 0⟩], [(2, some 1), (1, some 0)], ""⟩
        s1 1 0 3 "George") ∧
    (∃ s1, step .smart (.moveAssign 2 1)
        ⟨[⟨"George", 0⟩, ⟨"Nicky", 0⟩], [(2, some 1), (1, some 0)], ""⟩ = .ok s1 ∧
      Transferred .smart ⟨[⟨"George", 0⟩, ⟨"Nicky", 0⟩], [(2, some 1), (1, some 0)], ""⟩
        s1 1 0 2 "George") :=
  have hwf : WF ⟨[⟨"George", 0⟩, ⟨"Nicky", 0⟩], [(2, some 1), (1, some 0)], ""⟩ :=
    run_WF .smart [.construct 1 "George", .construct 2 "Nicky"] State.init _ WF_init rfl
  have h := move_transfer .smart
    ⟨[⟨"George", 0⟩, ⟨"Nicky", 0⟩], [(2, some 1), (1, some 0)], ""⟩ 1 0 "George" ⟨rfl, rfl⟩
  ⟨⟨⟨rfl, rfl⟩,
      (move_transfer .person ⟨[⟨"a", 0⟩], [(1, some 0)], ""⟩ 1 0 "a" ⟨rfl, rfl⟩).1 2 rfl⟩,
    hwf, ⟨rfl, rfl⟩, h.1 3 rfl, h.2 2 (some 1) hwf rfl (by decide)⟩

end MemoryManagement
